import Mathlib

/-!
Verification of the format-conversion orchestration engine (registry,
capability catalog, breadth-first pathfinder, staged executor).

The repository code is TypeScript; this file gives a shallow embedding of
the modules `types.ts`, `utils.ts` and `converter.ts` (the library file
`src/unnamed/part_005` together with `src/unnamed/part_003`).  Pure
functions become Lean functions; the module-level mutable state
(`handlers`, `allFormats`, `initialized`) becomes an explicit `ConvState`
threaded through the operations; the effects of the code (`onProgress`
callbacks, `handler.init()` invocations, `handler.doConvert` invocations)
are made visible as explicit traces in the returned records; code that can
throw (`init`, `doConvert`) returns `Except`/is modelled with an explicit
success flag.  JavaScript `Math.round` on non-negative quotients is
modelled exactly on rationals via `jsRound`.
-/

namespace Convert

/-- Category for UI grouping (`FileFormat.category` in `types.ts`). -/
inductive Category where
  | image
  | video
  | audio
  | document
  | archive
  | other
  deriving DecidableEq, Repr

/-- `FileFormat` from `types.ts`.  The TypeScript field `from` is a Lean
keyword, hence the guillemets. -/
structure FileFormat where
  name : String
  format : String
  extension : String
  mime : String
  «from» : Bool
  «to» : Bool
  internal : String
  category : Category
  deriving DecidableEq, Repr

/-- `FileData` from `types.ts`: a file name plus its bytes. -/
structure FileData where
  name : String
  bytes : List Nat
  deriving DecidableEq, Repr

/-- `FormatHandler` from `types.ts`.  `supportedFormats` is optional in the
source (`supportedFormats?`), hence `Option`.  `doConvert` may throw, hence
`Except String`; the `init` effect is modelled at registration time by
`HandlerClass.initOk`. -/
structure FormatHandler where
  name : String
  supportedFormats : Option (List FileFormat)
  ready : Bool
  doConvert : List FileData → FileFormat → FileFormat → Except String (List FileData)

/-- Progress stages of `ConversionProgress` in `types.ts`. -/
inductive Stage where
  | initializing
  | converting
  | complete
  | error
  deriving DecidableEq, Repr

/-- `ConversionProgress` from `types.ts`. -/
structure ConversionProgress where
  stage : Stage
  progress : Nat
  message : String
  deriving DecidableEq, Repr

/-- `ConversionResult` from `types.ts`; the optional fields `path?` and
`files?` become `Option`. -/
structure ConversionResult where
  success : Bool
  message : String
  path : Option (List String)
  files : Option (List FileData)
  deriving DecidableEq, Repr

/-- `normalizeMimeType` from `utils.ts` (the `switch` table). -/
def normalizeMimeType (mime : String) : String :=
  match mime with
  | "audio/x-wav" => "audio/wav"
  | "audio/vnd.wave" => "audio/wav"
  | "image/x-icon" => "image/vnd.microsoft.icon"
  | "image/qoi" => "image/x-qoi"
  | "video/bink" => "video/vnd.radgamettools.bink"
  | "video/binka" => "audio/vnd.radgamettools.bink"
  | m => m

/-- `handler.supportedFormats.some(f => f.mime === m && f.from)` guarded by
`handler.supportedFormats` being present (as in `findHandler` and the BFS
loops of `converter.ts`). -/
def canFrom (h : FormatHandler) (m : String) : Bool :=
  match h.supportedFormats with
  | none => false
  | some fs => fs.any (fun f => f.mime == m && f.«from»)

/-- `handler.supportedFormats.some(f => f.mime === m && f.«to»)`, guarded as
in `canFrom`. -/
def canTo (h : FormatHandler) (m : String) : Bool :=
  match h.supportedFormats with
  | none => false
  | some fs => fs.any (fun f => f.mime == m && f.«to»)

/-- `findHandler` from `converter.ts`: first ready handler that declares an
input entry for `inputFormat.mime` and an output entry for
`outputFormat.mime`. -/
def findHandler (handlers : List FormatHandler) (inputFormat outputFormat : FileFormat) :
    Option FormatHandler :=
  handlers.find? (fun h => h.ready && canFrom h inputFormat.mime && canTo h outputFormat.mime)

/-- One step of a `ConversionPath` (the anonymous `steps` element type in
`converter.ts`). -/
structure ConversionStep where
  handler : FormatHandler
  inputFormat : FileFormat
  outputFormat : FileFormat

/-- `ConversionPath` from `converter.ts`. -/
structure ConversionPath where
  steps : List ConversionStep

/-- A BFS queue entry of `findConversionPath`: a frontier format together
with the accumulated steps reaching it. -/
structure QItem where
  format : FileFormat
  path : List ConversionStep

/-- The inner `for (const format of handler.supportedFormats)` loop shared
by the seeding phase and the expansion phase of `findConversionPath`:
formats passing `keep` and not yet visited are added to the visited list
and enqueued (as `mk f`).  The accumulator is `(visited, queue)`. -/
def scanFormats (keep : FileFormat → Bool) (mk : FileFormat → QItem)
    (fs : List FileFormat) (acc : List String × List QItem) :
    List String × List QItem :=
  fs.foldl
    (fun acc f =>
      if keep f && !acc.1.contains f.mime then
        (acc.1 ++ [f.mime], acc.2 ++ [mk f])
      else acc)
    acc

/-- The outer `for (const handler of handlers)` loop shared by the seeding
and expansion phases of `findConversionPath`: handlers lacking
`supportedFormats`, not ready, or unable to read `fromMime` are skipped;
the rest scan their declared formats. -/
def scanHandlers (handlers : List FormatHandler) (fromMime : String)
    (keep : FileFormat → Bool) (mk : FormatHandler → FileFormat → QItem)
    (acc : List String × List QItem) : List String × List QItem :=
  handlers.foldl
    (fun acc h =>
      match h.supportedFormats with
      | none => acc
      | some fs =>
        if h.ready && fs.any (fun f => f.mime == fromMime && f.«from») then
          scanFormats keep (mk h) fs acc
        else acc)
    acc

/-- The seeding phase of `findConversionPath` (lines 241-260): all formats
one ready-handler step away from `inputFormat`, excluding
`format.mime === inputFormat.mime`, each mime enqueued at most once. -/
def seedAll (handlers : List FormatHandler) (inputFormat : FileFormat) :
    List String × List QItem :=
  scanHandlers handlers inputFormat.mime
    (fun f => f.«to» && f.mime != inputFormat.mime)
    (fun h f => ⟨f, [⟨h, inputFormat, f⟩]⟩)
    ([], [])

/-- The expansion phase of `findConversionPath` (lines 281-302): successors
of the dequeued frontier item `cur`, each unvisited mime enqueued once with
the extended path. -/
def expandAll (handlers : List FormatHandler) (cur : QItem) (visited : List String) :
    List String × List QItem :=
  scanHandlers handlers cur.format.mime
    (fun f => f.«to»)
    (fun h f => ⟨f, cur.path ++ [⟨h, cur.format, f⟩]⟩)
    (visited, [])

/-- The `while (queue.length > 0)` loop of `findConversionPath`, with an
explicit fuel argument (`none` marks fuel exhaustion; `some none` is the
loop running to an empty queue; `some (some p)` is a found path).
`bfsLoop_no_fuel_exhaustion` below proves the fuel used by
`findConversionPath` is never exhausted, so the fuel is a Lean
totality device, not a behaviour change. -/
def bfsLoop (handlers : List FormatHandler) (outputFormat : FileFormat) (maxDepth : Nat) :
    Nat → List QItem → List String → Option (Option ConversionPath)
  | 0, _, _ => none
  | _ + 1, [], _ => some none
  | fuel + 1, cur :: rest, visited =>
    if maxDepth ≤ cur.path.length then
      bfsLoop handlers outputFormat maxDepth fuel rest visited
    else
      match findHandler handlers cur.format outputFormat with
      | some h =>
        some (some ⟨cur.path ++ [⟨h, cur.format, outputFormat⟩]⟩)
      | none =>
        let st := expandAll handlers cur visited
        bfsLoop handlers outputFormat maxDepth fuel (rest ++ st.2) st.1

/-- Every mime type appearing in any handler's declared format list. -/
def mimePool (handlers : List FormatHandler) : List String :=
  handlers.foldr
    (fun h acc =>
      (match h.supportedFormats with
       | none => []
       | some fs => fs.map (fun f => f.mime)) ++ acc)
    []

/-- Number of mimes of `pool` (deduplicated) not yet in `visited`: the BFS
can still enqueue at most this many items. -/
def freshCount (pool : List String) (visited : List String) : Nat :=
  (pool.dedup.filter (fun m => !visited.contains m)).length

/-- `findConversionPath` from `converter.ts`: direct-handler check, then a
breadth-first search over mime types bounded by `maxDepth` (default 3).
The fuel given to `bfsLoop` is provably sufficient
(`bfsLoop_no_fuel_exhaustion`). -/
def findConversionPath (handlers : List FormatHandler)
    (inputFormat outputFormat : FileFormat) (maxDepth : Nat := 3) :
    Option ConversionPath :=
  match findHandler handlers inputFormat outputFormat with
  | some h => some ⟨[⟨h, inputFormat, outputFormat⟩]⟩
  | none =>
    if maxDepth ≤ 1 then none
    else
      let st := seedAll handlers inputFormat
      (bfsLoop handlers outputFormat maxDepth
        (st.2.length + freshCount (mimePool handlers) st.1 + 1) st.2 st.1).join

/-- JavaScript `Math.round (num / den)` for non-negative operands:
round-half-up, i.e. `⌊num/den + 1/2⌋`. -/
def jsRound (num den : Nat) : Nat :=
  (2 * num + den) / (2 * den)

/-- The registration of one handler class: `new HandlerClass()` produces
`handler`; `initOk` records whether its `init()` call succeeds (an `init`
that throws is modelled by `initOk = false`). -/
structure HandlerClass where
  handler : FormatHandler
  initOk : Bool

/-- The module-level mutable state of `converter.ts`
(`handlers`, `allFormats`, `initialized`). -/
structure ConvState where
  handlers : List FormatHandler
  allFormats : List FileFormat
  initialized : Bool

/-- The module state at load time: `handlers = []`, `allFormats = []`,
`initialized = false`. -/
def initialState : ConvState := ⟨[], [], false⟩

/-- The dedup check of `initializeConverter` (lines 114-125): push `f`
unless an entry with the same `(mime, format)` pair is already present.
`format.category || getCategoryFromMime(...)` is the identity here because
`category` is a required field of the `FileFormat` interface. -/
def dedupStep (acc : List FileFormat) (f : FileFormat) : List FileFormat :=
  if acc.any (fun g => g.mime == f.mime && g.format == f.format) then acc
  else acc ++ [f]

/-- Merging one handler's declared formats into the catalog
(`if (handler.supportedFormats) { for (const format of ...) ... }`). -/
def mergeFormats (acc : List FileFormat) (sf : Option (List FileFormat)) : List FileFormat :=
  match sf with
  | none => acc
  | some fs => fs.foldl dedupStep acc

/-- The fixed category order of the catalog sort comparator
(`['image', 'video', 'audio', 'document', 'archive', 'other']`). -/
def categoryOrder : List Category :=
  [.image, .video, .audio, .document, .archive, .other]

/-- `order.indexOf(category)` in the sort comparator. -/
def categoryIndex (c : Category) : Nat :=
  categoryOrder.indexOf c

/-- The sort comparator of `initializeConverter` (lines 133-139).  `lc`
abstracts `String.prototype.localeCompare`, whose locale-dependent result
is not defined by the source; it is kept as a parameter. -/
def formatCompare (lc : String → String → Ordering) (a b : FileFormat) : Int :=
  if a.category ≠ b.category then
    (categoryIndex a.category : Int) - (categoryIndex b.category : Int)
  else
    match lc a.name b.name with
    | .lt => -1
    | .eq => 0
    | .gt => 1

/-- The comparator read as a boolean "less or equal". -/
def formatLe (lc : String → String → Ordering) (a b : FileFormat) : Bool :=
  formatCompare lc a b ≤ 0

/-- `allFormats.sort(comparator)`: `Array.prototype.sort` is required to be
stable, and a stable sort by a consistent comparator is unique, so a stable
insertion sort models it. -/
def sortFormats (lc : String → String → Ordering) (fs : List FileFormat) : List FileFormat :=
  fs.insertionSort (fun a b => formatLe lc a b = true)

/-- Accumulator of the handler-initialization loop: the two module lists
being rebuilt plus the visible effect traces (progress events and the
`init()` invocations performed). -/
structure InitAcc where
  handlers : List FormatHandler
  allFormats : List FileFormat
  events : List ConversionProgress
  initsRun : List String

/-- The `for (let i = 0; i < handlerClasses.length; i++)` loop of
`initializeConverter`: emit the per-handler progress event, invoke
`init()` (recorded in `initsRun`); on success push the handler and merge
its formats, on failure catch and continue with the remaining handlers. -/
def initLoop (n : Nat) : Nat → List HandlerClass → InitAcc → InitAcc
  | _, [], acc => acc
  | i, c :: rest, acc =>
    let acc : InitAcc :=
      { acc with
        events := acc.events ++
          [⟨.initializing, jsRound (100 * i + 50) n,
            "Initializing " ++ c.handler.name ++ "..."⟩],
        initsRun := acc.initsRun ++ [c.handler.name] }
    if c.initOk then
      initLoop n (i + 1) rest
        { acc with
          handlers := acc.handlers ++ [c.handler],
          allFormats := mergeFormats acc.allFormats c.handler.supportedFormats }
    else
      initLoop n (i + 1) rest acc

/-- What a call to `initializeConverter` produces: the new module state,
the returned format list, and the visible effects. -/
structure InitResult where
  state : ConvState
  formats : List FileFormat
  events : List ConversionProgress
  initsRun : List String

/-- `initializeConverter` from `converter.ts`, with the module-level
`handlerClasses` list as the `classes` parameter and the module state
explicit.  The early return (line 85) fires only when `initialized` is set
and the catalog is non-empty. -/
def initializeConverter (classes : List HandlerClass)
    (lc : String → String → Ordering) (st : ConvState) : InitResult :=
  if st.initialized && st.allFormats.length > 0 then
    ⟨st, st.allFormats, [], []⟩
  else
    let acc := initLoop classes.length 0 classes
      ⟨[], [], [⟨.initializing, 0, "Loading conversion tools..."⟩], []⟩
    let sorted := sortFormats lc acc.allFormats
    ⟨⟨acc.handlers, sorted, true⟩, sorted,
      acc.events ++
        [⟨.initializing, 100, "Loaded " ++ toString sorted.length ++ " formats"⟩],
      acc.initsRun⟩

/-- `getFormats` from `converter.ts`. -/
def getFormats (st : ConvState) : List FileFormat :=
  st.allFormats

/-- `getInputFormats` from `converter.ts`. -/
def getInputFormats (st : ConvState) : List FileFormat :=
  st.allFormats.filter (fun f => f.«from»)

/-- `getOutputFormats` from `converter.ts`. -/
def getOutputFormats (st : ConvState) : List FileFormat :=
  st.allFormats.filter (fun f => f.«to»)

/-- `findFormatByMime` from `converter.ts`. -/
def findFormatByMime (st : ConvState) (mime : String) : Option FileFormat :=
  st.allFormats.find? (fun f => f.mime == normalizeMimeType mime)

/-- `step.handler.supportedFormats?.find(f => f.mime === m && f.from)`:
resolution of the handler's own input descriptor in the executor. -/
def resolveFrom (h : FormatHandler) (m : String) : Option FileFormat :=
  match h.supportedFormats with
  | none => none
  | some fs => fs.find? (fun f => f.mime == m && f.«from»)

/-- `step.handler.supportedFormats?.find(f => f.mime === m && f.to)`:
resolution of the handler's own output descriptor in the executor. -/
def resolveTo (h : FormatHandler) (m : String) : Option FileFormat :=
  match h.supportedFormats with
  | none => none
  | some fs => fs.find? (fun f => f.mime == m && f.«to»)

/-- The step-execution loop of `convert` (lines 373-411).  `n` is the total
step count; the per-step progress event is emitted before the `try` block;
descriptor-resolution failure throws `Format not supported by handler`
into the same catch as a throwing `doConvert`; the catch returns a failure
result carrying the labels completed so far.  Returns the result, the
events emitted, and the `doConvert` invocations performed. -/
def runSteps (n : Nat) (outputFormat : FileFormat) :
    List ConversionStep → Nat → List FileData → List String →
    List ConversionProgress → List String →
    ConversionResult × List ConversionProgress × List String
  | [], _, files, pathFormats, evs, calls =>
    (⟨true, "Successfully converted to " ++ outputFormat.format.toUpper,
        some pathFormats, some files⟩,
      evs ++ [⟨.complete, 100, "Conversion complete!"⟩], calls)
  | step :: rest, i, files, pathFormats, evs, calls =>
    let evs := evs ++
      [⟨.converting, 10 + jsRound (80 * (i + 1)) n,
        "Converting to " ++ step.outputFormat.format.toUpper ++ "..."⟩]
    match resolveFrom step.handler step.inputFormat.mime,
          resolveTo step.handler step.outputFormat.mime with
    | some hif, some hof =>
      let calls := calls ++ [step.handler.name]
      match step.handler.doConvert files hif hof with
      | .ok files' =>
        runSteps n outputFormat rest (i + 1) files'
          (pathFormats ++ [step.outputFormat.format.toUpper]) evs calls
      | .error e =>
        (⟨false, "Conversion failed at step " ++ toString (i + 1) ++ ": " ++ e,
            some pathFormats, none⟩, evs, calls)
    | _, _ =>
      (⟨false,
          "Conversion failed at step " ++ toString (i + 1) ++ ": " ++
            "Format not supported by handler",
          some pathFormats, none⟩, evs, calls)

/-- What a call to `convert` produces: the `ConversionResult` plus the
visible effects (progress events, `doConvert` invocations, whether
`findConversionPath` was consulted, and `init()` invocations from an
implicit `initializeConverter` run). -/
structure ConvertOutput where
  result : ConversionResult
  events : List ConversionProgress
  doConvertCalls : List String
  ranRouting : Bool
  initsRun : List String

/-- `convert` from `converter.ts`: initialize if needed, identity shortcut
on equal mime types, route discovery with the default hop bound 3, then
the step-execution loop.  The browser `File` inputs are modelled as the
`FileData` they are read into (name plus bytes). -/
def convert (classes : List HandlerClass) (lc : String → String → Ordering)
    (st : ConvState) (files : List FileData)
    (inputFormat outputFormat : FileFormat) : ConvertOutput :=
  let init :=
    if !st.initialized then initializeConverter classes lc st
    else ⟨st, st.allFormats, [], []⟩
  let evs := init.events ++ [⟨.converting, 0, "Finding conversion route..."⟩]
  if inputFormat.mime == outputFormat.mime then
    ⟨⟨true, "Files are already in the target format.",
        some [inputFormat.format.toUpper], some files⟩,
      evs, [], false, init.initsRun⟩
  else
    match findConversionPath init.state.handlers inputFormat outputFormat with
    | none =>
      ⟨⟨false,
          "No conversion path found from " ++ inputFormat.format.toUpper ++
            " to " ++ outputFormat.format.toUpper ++
            ". Try a different output format.",
          none, none⟩,
        evs, [], true, init.initsRun⟩
    | some path =>
      let evs := evs ++
        [⟨.converting, 10,
          "Converting: " ++
            String.intercalate " → "
              (path.steps.map (fun s => s.outputFormat.format.toUpper))⟩]
      let r := runSteps path.steps.length outputFormat path.steps 0 files
        [inputFormat.format.toUpper] evs []
      ⟨r.1, r.2.1, r.2.2, true, init.initsRun⟩

/-! ## Specification-level notions: the capability graph -/

/-- The capability-graph edge relation (spec §2): there is an edge from
mime `a` to mime `b` when some ready handler declares an input entry for
`a` and an output entry for `b`. -/
def edgeB (handlers : List FormatHandler) (a b : String) : Bool :=
  handlers.any (fun h => h.ready && canFrom h a && canTo h b)

/-- A conversion path of length `k` from mime `a` to mime `b` exists in
the capability graph. -/
def PathLen (handlers : List FormatHandler) (a b : String) : Nat → Prop
  | 0 => a = b
  | k + 1 => ∃ c, edgeB handlers a c = true ∧ PathLen handlers c b k

/-- A `ConversionStep` is realizable: its handler is registered, ready,
and declares the step's input and output mimes. -/
def stepOk (handlers : List FormatHandler) (st : ConversionStep) : Prop :=
  st.handler ∈ handlers ∧ st.handler.ready = true ∧
    canFrom st.handler st.inputFormat.mime = true ∧
    canTo st.handler st.outputFormat.mime = true

/-- The steps form a realizable chain from `cur` to `endF`: consecutive
steps share their format objects and every step is realizable. -/
def chainFrom (handlers : List FormatHandler) :
    FileFormat → List ConversionStep → FileFormat → Prop
  | cur, [], endF => cur = endF
  | cur, st :: rest, endF =>
    st.inputFormat = cur ∧ stepOk handlers st ∧
      chainFrom handlers st.outputFormat rest endF

/-- The declared formats of the handler classes whose `init()` succeeded,
in registration order: exactly the formats `initializeConverter` merges
into the catalog. -/
def successfulDecls (classes : List HandlerClass) : List FileFormat :=
  (classes.filter (fun c => c.initOk)).flatMap
    (fun c =>
      match c.handler.supportedFormats with
      | none => []
      | some fs => fs)

/-- Two format descriptors collide for the catalog dedup rule: same
`(mime, format-code)` pair. -/
def samePair (a b : FileFormat) : Prop :=
  a.mime = b.mime ∧ a.format = b.format

/-- The loop invariant of the BFS in `findConversionPath`, over the queue
`q`, the visited list `v` and a ghost discovery-depth map `ℓ`: queue mimes
are visited and pairwise distinct; every item carries a realizable chain
from the source; queue path lengths are nondecreasing and spread over at
most two consecutive values; every visited mime was discovered no deeper
than one past the head; items record their discovery depth in `ℓ`; and
every visited mime no longer queued was either dropped at the depth bound
or fully expanded (no bridge to the destination, all successors visited
one level deeper at most). -/
structure BfsInv (hs : List FormatHandler) (inF outF : FileFormat) (maxD : Nat)
    (q : List QItem) (v : List String) (ℓ : String → Nat) : Prop where
  qv : ∀ i ∈ q, i.format.mime ∈ v
  qnodup : (q.map (fun i => i.format.mime)).Nodup
  qvalid : ∀ i ∈ q, chainFrom hs inF i.path i.format ∧ 1 ≤ i.path.length
  qsorted : List.Pairwise (fun a b => a.path.length ≤ b.path.length) q
  qspread : ∀ hd, q.head? = some hd → ∀ i ∈ q, i.path.length ≤ hd.path.length + 1
  vbound : ∀ hd, q.head? = some hd → ∀ m ∈ v, ℓ m ≤ hd.path.length + 1
  qlen : ∀ i ∈ q, ℓ i.format.mime = i.path.length
  closed : ∀ m ∈ v, m ∉ q.map (fun i => i.format.mime) →
    maxD ≤ ℓ m ∨
      (edgeB hs m outF.mime = false ∧
        ∀ u, edgeB hs m u = true → u ∈ v ∧ ℓ u ≤ ℓ m + 1)

/-! ## Concrete fixtures used by witnesses and counterexamples -/

/-- Fixture format `A` (`app/a`, readable only). -/
def fmtA : FileFormat := ⟨"Alpha", "aaa", "aaa", "app/a", true, false, "a", .other⟩

/-- Fixture format `B` (`app/b`, readable and writable). -/
def fmtB : FileFormat := ⟨"Beta", "bbb", "bbb", "app/b", true, true, "b", .other⟩

/-- Fixture format `C` (`app/c`, writable only). -/
def fmtC : FileFormat := ⟨"Gamma", "ccc", "ccc", "app/c", false, true, "c", .other⟩

/-- Fixture handler converting `A → B` (succeeds, returns its input). -/
def hAB : FormatHandler :=
  ⟨"H1", some [fmtA, fmtB], true, fun fl _ _ => .ok fl⟩

/-- Fixture handler converting `B → C` whose conversion always throws. -/
def hBCfail : FormatHandler :=
  ⟨"H2", some [{ fmtB with «to» := false }, fmtC], true, fun _ _ _ => .error "boom"⟩

/-- Fixture handler converting `A → B` whose `B` entry is also readable,
giving the cycle `A → B → A`-ish capability used in witnesses. -/
def hABcycle : FormatHandler :=
  ⟨"H3", some [{ fmtA with «to» := true }, fmtB], true, fun fl _ _ => .ok fl⟩

/-- A concrete locale comparator: plain string comparison. -/
def lcStd : String → String → Ordering := fun a b => compare a b

/-- A fixture handler class whose `init()` throws. -/
def badClass : HandlerClass :=
  ⟨⟨"Bad", some [fmtA], true, fun fl _ _ => .ok fl⟩, false⟩

/-- A fixture handler class that initializes successfully. -/
def goodClass : HandlerClass := ⟨hAB, true⟩

/-- A module state with the two fixture handlers registered and a
non-empty catalog, as after a successful initialization. -/
def stFix : ConvState := ⟨[hAB, hBCfail], [fmtA, fmtB, fmtC], true⟩

/-- A fixture input file. -/
def fileX : FileData := ⟨"x.aaa", [1, 2, 3]⟩

/-! ## C3: identity shortcut -/

/-- C3: for every input file list and every pair of formats with equal
mime types, `convert` succeeds with the input bytes unchanged and the
one-element path label list `[source code uppercased]`, without invoking
any handler's `doConvert` and without running path discovery. -/
theorem identity_shortcut (classes : List HandlerClass)
    (lc : String → String → Ordering) (st : ConvState) (files : List FileData)
    (inputFormat outputFormat : FileFormat)
    (h : inputFormat.mime = outputFormat.mime) :
    (convert classes lc st files inputFormat outputFormat).result =
      ⟨true, "Files are already in the target format.",
        some [inputFormat.format.toUpper], some files⟩ ∧
    (convert classes lc st files inputFormat outputFormat).doConvertCalls = [] ∧
    (convert classes lc st files inputFormat outputFormat).ranRouting = false := by
  unfold convert
  simp [h]

/-- Witness for C3 at a concrete run: PNG-to-PNG-style identity on the
fixture format `A`. -/
theorem identity_shortcut_witness :
    (convert [] lcStd stFix [fileX] fmtA fmtA).result =
      ⟨true, "Files are already in the target format.",
        some [fmtA.format.toUpper], some [fileX]⟩ ∧
    (convert [] lcStd stFix [fileX] fmtA fmtA).doConvertCalls = [] ∧
    (convert [] lcStd stFix [fileX] fmtA fmtA).ranRouting = false :=
  identity_shortcut [] lcStd stFix [fileX] fmtA fmtA rfl

/-! ## C6: no route found -/

/-- C6: when the mime types differ and no conversion path exists within
the hop bound, `convert` returns (rather than throws — the model is a
total function) a failed `ConversionResult` with no path and the
descriptive no-route message. -/
theorem no_route_failed_result (classes : List HandlerClass)
    (lc : String → String → Ordering) (st : ConvState) (files : List FileData)
    (inputFormat outputFormat : FileFormat)
    (hinit : st.initialized = true)
    (hmime : inputFormat.mime ≠ outputFormat.mime)
    (hpath : findConversionPath st.handlers inputFormat outputFormat = none) :
    (convert classes lc st files inputFormat outputFormat).result =
      ⟨false,
        "No conversion path found from " ++ inputFormat.format.toUpper ++
          " to " ++ outputFormat.format.toUpper ++
          ". Try a different output format.",
        none, none⟩ := by
  unfold convert
  simp [hinit, hmime, hpath]

/-- Witness for C6: the fixture catalog has no route from `C` to `A`. -/
theorem no_route_failed_result_witness :
    (convert [] lcStd stFix [fileX] fmtC fmtA).result =
      ⟨false,
        "No conversion path found from " ++ fmtC.format.toUpper ++
          " to " ++ fmtA.format.toUpper ++
          ". Try a different output format.",
        none, none⟩ :=
  no_route_failed_result [] lcStd stFix [fileX] fmtC fmtA rfl (by decide) rfl

/-! ## C2: partial-failure reporting -/

/-- C2: on a 2-step path where step 1's conversion succeeds and step 2's
handler raises, `convert` reports `success = false`, the label list of the
source plus only the completed step (`[A, B]`, not `[A, B, C]`), and the
message "Conversion failed at step 2: " carrying the error's message. -/
theorem partial_failure_reporting (classes : List HandlerClass)
    (lc : String → String → Ordering) (st : ConvState) (files : List FileData)
    (inputFormat outputFormat : FileFormat) (s1 s2 : ConversionStep)
    (hif1 hof1 hif2 hof2 : FileFormat) (files1 : List FileData) (e : String)
    (hinit : st.initialized = true)
    (hmime : inputFormat.mime ≠ outputFormat.mime)
    (hpath : findConversionPath st.handlers inputFormat outputFormat =
      some ⟨[s1, s2]⟩)
    (hr1f : resolveFrom s1.handler s1.inputFormat.mime = some hif1)
    (hr1t : resolveTo s1.handler s1.outputFormat.mime = some hof1)
    (hc1 : s1.handler.doConvert files hif1 hof1 = .ok files1)
    (hr2f : resolveFrom s2.handler s2.inputFormat.mime = some hif2)
    (hr2t : resolveTo s2.handler s2.outputFormat.mime = some hof2)
    (hc2 : s2.handler.doConvert files1 hif2 hof2 = .error e) :
    (convert classes lc st files inputFormat outputFormat).result =
      ⟨false, "Conversion failed at step 2: " ++ e,
        some [inputFormat.format.toUpper, s1.outputFormat.format.toUpper],
        none⟩ := by
  unfold convert
  simp [hinit, hmime, hpath, runSteps, hr1f, hr1t, hc1, hr2f, hr2t, hc2]
  rfl

/-- Witness for C2: the fixture route `A → B → C` where `H1` succeeds and
`H2` throws "boom". -/
theorem partial_failure_reporting_witness :
    (convert [] lcStd stFix [fileX] fmtA fmtC).result =
      ⟨false, "Conversion failed at step 2: " ++ "boom",
        some [fmtA.format.toUpper, fmtB.format.toUpper], none⟩ :=
  partial_failure_reporting [] lcStd stFix [fileX] fmtA fmtC
    ⟨hAB, fmtA, fmtB⟩ ⟨hBCfail, fmtB, fmtC⟩
    fmtA fmtB { fmtB with «to» := false } fmtC [fileX] "boom"
    rfl (by decide) rfl rfl rfl rfl rfl rfl rfl

/-! ## C5: idempotence of initialization -/

/-- C5 counterexample: after a run of `initializeConverter` that completed
(set `initialized`) but produced an empty catalog — here a single handler
class whose `init()` throws — a subsequent call is not a no-op: it re-runs
handler initialization (`initsRun = ["Bad"]`) and re-emits progress
events, because the early return also requires a non-empty catalog. -/
theorem initialize_reruns_on_empty_catalog :
    (initializeConverter [badClass] lcStd initialState).state.initialized = true ∧
    (initializeConverter [badClass] lcStd initialState).state.allFormats = [] ∧
    (initializeConverter [badClass] lcStd
        (initializeConverter [badClass] lcStd initialState).state).initsRun =
      ["Bad"] ∧
    (initializeConverter [badClass] lcStd
        (initializeConverter [badClass] lcStd initialState).state).events ≠ [] :=
  ⟨rfl, rfl, rfl, by decide⟩

/-- C5 (amended): re-invoking `initializeConverter` after a successful run
that produced a non-empty catalog is a no-op: the existing catalog is
returned, no handler `init()` runs, no progress event is emitted, and the
state is unchanged. -/
theorem initialize_idempotent_nonempty (classes : List HandlerClass)
    (lc : String → String → Ordering) (st : ConvState)
    (h1 : st.initialized = true) (h2 : st.allFormats ≠ []) :
    initializeConverter classes lc st = ⟨st, st.allFormats, [], []⟩ := by
  unfold initializeConverter
  have hlen : 0 < st.allFormats.length := List.length_pos.mpr h2
  simp [h1, hlen]

/-- Witness for C5 (amended) on the fixture state with three catalog
entries. -/
theorem initialize_idempotent_nonempty_witness :
    initializeConverter [goodClass] lcStd stFix = ⟨stFix, stFix.allFormats, [], []⟩ :=
  initialize_idempotent_nonempty [goodClass] lcStd stFix rfl (by decide)

/-! ## C7: progress interpolation -/

/-- C7 counterexample: a successfully executed 1-step path emits the
percentages `[0, 10, 90, 100]`; the percentage emitted before step 1 is
90, while the claim's interpolation `10 + 90·(i/n)` at `i = n = 1` is 100
— execution interpolation covers 80 points (10 to 90), not 90. -/
theorem progress_not_ninety_percent_split :
    ((convert [] lcStd stFix [fileX] fmtA fmtB).events.map
        (fun e => e.progress)) = [0, 10, 90, 100] ∧
    (convert [] lcStd stFix [fileX] fmtA fmtB).result.success = true ∧
    10 + 90 * 1 / 1 = 100 ∧ (90 : Nat) ≠ 10 + 90 * 1 / 1 :=
  ⟨rfl, rfl, rfl, by decide⟩

/-- The rounded execution-progress increment never exceeds 80 points. -/
theorem jsRound_le_eighty (i n : Nat) (h : i < n) :
    jsRound (80 * (i + 1)) n ≤ 80 := by
  unfold jsRound
  have h1 : 2 * (80 * (i + 1)) + n ≤ 161 * n := by omega
  have h2 : (161 * n) / (2 * n) < 81 :=
    Nat.div_lt_of_lt_mul (by omega)
  exact le_trans (Nat.div_le_div_right h1) (Nat.lt_succ_iff.mp h2)

/-- Events of a fully successful `runSteps` run: one `converting` event
per step, at `10 + round(80·(i+1)/n)`, then the final `complete` event. -/
theorem runSteps_success_events (n : Nat) (outF : FileFormat) :
    ∀ (steps : List ConversionStep) (i : Nat) (files : List FileData)
      (pf : List String) (evs : List ConversionProgress) (calls : List String),
      (runSteps n outF steps i files pf evs calls).1.success = true →
      (runSteps n outF steps i files pf evs calls).2.1 =
        evs ++
          (steps.enumFrom i).map
            (fun ie =>
              ⟨.converting, 10 + jsRound (80 * (ie.1 + 1)) n,
                "Converting to " ++ ie.2.outputFormat.format.toUpper ++ "..."⟩) ++
          [⟨.complete, 100, "Conversion complete!"⟩] := by
  intro steps
  induction steps with
  | nil =>
    intro i files pf evs calls _
    simp [runSteps]
  | cons step rest ih =>
    intro i files pf evs calls hsucc
    rw [runSteps] at hsucc ⊢
    cases hf : resolveFrom step.handler step.inputFormat.mime with
    | none => simp [hf] at hsucc
    | some hif =>
      cases ht : resolveTo step.handler step.outputFormat.mime with
      | none => simp [hf, ht] at hsucc
      | some hof =>
        simp only [hf, ht] at hsucc ⊢
        cases hdc : step.handler.doConvert files hif hof with
        | error e => simp [hdc] at hsucc
        | ok files' =>
          simp only [hdc] at hsucc ⊢
          rw [ih _ _ _ _ _ hsucc]
          simp [List.enumFrom_cons]

/-- C7 (amended): on a successfully executed `n`-step path, `convert`
emits `converting` at 0 (route search) and 10 (route found), then before
the `i`-th step (1-based) exactly `10 + round(80·i/n)` — routing accounts
for the first 10 points and execution interpolates the next 80, with the
final `complete` event carrying 100 — and every emitted percentage lies
within 0–100. -/
theorem progress_interpolation_eighty (classes : List HandlerClass)
    (lc : String → String → Ordering) (st : ConvState) (files : List FileData)
    (inF outF : FileFormat) (p : ConversionPath)
    (hinit : st.initialized = true)
    (hmime : inF.mime ≠ outF.mime)
    (hpath : findConversionPath st.handlers inF outF = some p)
    (hsucc : (convert classes lc st files inF outF).result.success = true) :
    (convert classes lc st files inF outF).events =
      [⟨.converting, 0, "Finding conversion route..."⟩,
       ⟨.converting, 10,
        "Converting: " ++ String.intercalate " → "
          (p.steps.map (fun s => s.outputFormat.format.toUpper))⟩] ++
        p.steps.enum.map
          (fun ie =>
            ⟨.converting, 10 + jsRound (80 * (ie.1 + 1)) p.steps.length,
              "Converting to " ++ ie.2.outputFormat.format.toUpper ++ "..."⟩) ++
        [⟨.complete, 100, "Conversion complete!"⟩] ∧
    ∀ e ∈ (convert classes lc st files inF outF).events, e.progress ≤ 100 := by
  have hne : (inF.mime == outF.mime) = false := beq_eq_false_iff_ne.mpr hmime
  unfold convert at hsucc ⊢
  simp only [hinit, Bool.not_true, hne, Bool.false_eq_true, if_false, hpath] at hsucc ⊢
  rw [runSteps_success_events _ _ _ _ _ _ _ _ hsucc]
  constructor
  · simp [List.enum]
  · intro e he
    simp only [List.mem_append, List.mem_map, List.mem_cons,
      List.not_mem_nil, or_false, List.mem_singleton] at he
    rcases he with (((h0 | h0) | h0) | ⟨⟨i, s⟩, hmem, heq⟩) | h0
    · exact h0.elim
    · simp [h0]
    · simp [h0]
    · have hi : i < p.steps.length := by
        have := List.mem_enumFrom hmem
        omega
      have hb := jsRound_le_eighty i p.steps.length hi
      rw [← heq]
      simp only []
      omega
    · simp [h0]

/-- Witness for C7 (amended): a successful 1-step fixture run, whose
events carry the percentages 0, 10, 90, 100. -/
theorem progress_interpolation_eighty_witness :
    (convert [] lcStd stFix [fileX] fmtA fmtB).events =
      [⟨.converting, 0, "Finding conversion route..."⟩,
       ⟨.converting, 10,
        "Converting: " ++ String.intercalate " → "
          ((⟨[⟨hAB, fmtA, fmtB⟩]⟩ : ConversionPath).steps.map
            (fun s => s.outputFormat.format.toUpper))⟩] ++
        (⟨[⟨hAB, fmtA, fmtB⟩]⟩ : ConversionPath).steps.enum.map
          (fun ie =>
            ⟨.converting,
              10 + jsRound (80 * (ie.1 + 1))
                (⟨[⟨hAB, fmtA, fmtB⟩]⟩ : ConversionPath).steps.length,
              "Converting to " ++ ie.2.outputFormat.format.toUpper ++ "..."⟩) ++
        [⟨.complete, 100, "Conversion complete!"⟩] ∧
    ∀ e ∈ (convert [] lcStd stFix [fileX] fmtA fmtB).events, e.progress ≤ 100 :=
  progress_interpolation_eighty [] lcStd stFix [fileX] fmtA fmtB
    ⟨[⟨hAB, fmtA, fmtB⟩]⟩ rfl (by decide) rfl rfl

/-! ## C4 and C8: catalog dedup, failed-handler exclusion -/

/-- The dedup membership test of `initializeConverter` read logically. -/
theorem dedup_any_iff (acc : List FileFormat) (f : FileFormat) :
    (acc.any (fun g => g.mime == f.mime && g.format == f.format) = true) ↔
      ∃ g ∈ acc, samePair g f := by
  simp [List.any_eq_true, samePair, Bool.and_eq_true]

/-- `samePair` is transitive. -/
theorem samePair_trans {a b c : FileFormat} (h1 : samePair a b) (h2 : samePair b c) :
    samePair a c :=
  ⟨h1.1.trans h2.1, h1.2.trans h2.2⟩

/-- The handler list built by the initialization loop: the previously
accumulated handlers plus, in order, those classes whose `init()`
succeeded. -/
theorem initLoop_handlers (n : Nat) :
    ∀ (classes : List HandlerClass) (i : Nat) (acc : InitAcc),
      (initLoop n i classes acc).handlers =
        acc.handlers ++ (classes.filter (fun c => c.initOk)).map (fun c => c.handler) := by
  intro classes
  induction classes with
  | nil => intro i acc; simp [initLoop]
  | cons c rest ih =>
    intro i acc
    rw [initLoop]
    cases hc : c.initOk with
    | true => rw [if_pos rfl, ih]; simp [List.filter_cons, hc]
    | false => rw [if_neg (by simp), ih]; simp [List.filter_cons, hc]

/-- The catalog built by the initialization loop: the fold of the dedup
step over the declared formats of the successfully initialized classes. -/
theorem initLoop_allFormats (n : Nat) :
    ∀ (classes : List HandlerClass) (i : Nat) (acc : InitAcc),
      (initLoop n i classes acc).allFormats =
        (successfulDecls classes).foldl dedupStep acc.allFormats := by
  intro classes
  induction classes with
  | nil => intro i acc; simp [initLoop, successfulDecls]
  | cons c rest ih =>
    intro i acc
    rw [initLoop]
    cases hc : c.initOk with
    | true =>
      rw [if_pos rfl, ih]
      have hdecl : successfulDecls (c :: rest) =
          (match c.handler.supportedFormats with
           | none => []
           | some fs => fs) ++ successfulDecls rest := by
        simp [successfulDecls, List.filter_cons, hc]
      rw [hdecl, List.foldl_append]
      cases c.handler.supportedFormats with
      | none => rfl
      | some fs => rfl
    | false =>
      rw [if_neg (by simp), ih]
      have hdecl : successfulDecls (c :: rest) = successfulDecls rest := by
        simp [successfulDecls, List.filter_cons, hc]
      rw [hdecl]

/-- The `init()` trace of the initialization loop: every class is
attempted, in order, regardless of failures. -/
theorem initLoop_initsRun (n : Nat) :
    ∀ (classes : List HandlerClass) (i : Nat) (acc : InitAcc),
      (initLoop n i classes acc).initsRun =
        acc.initsRun ++ classes.map (fun c => c.handler.name) := by
  intro classes
  induction classes with
  | nil => intro i acc; simp [initLoop]
  | cons c rest ih =>
    intro i acc
    rw [initLoop]
    cases hc : c.initOk with
    | true => rw [if_pos rfl, ih]; simp
    | false => rw [if_neg (by simp), ih]; simp

/-- The dedup fold keeps the accumulator free of colliding pairs. -/
theorem foldl_dedupStep_pairwise :
    ∀ (l acc : List FileFormat),
      List.Pairwise (fun a b => ¬ samePair a b) acc →
      List.Pairwise (fun a b => ¬ samePair a b) (l.foldl dedupStep acc) := by
  intro l
  induction l with
  | nil => intro acc h; exact h
  | cons f rest ih =>
    intro acc h
    rw [List.foldl_cons]
    apply ih
    unfold dedupStep
    by_cases hany : acc.any (fun g => g.mime == f.mime && g.format == f.format) = true
    · rw [if_pos hany]; exact h
    · rw [if_neg hany]
      rw [List.pairwise_append]
      refine ⟨h, List.pairwise_singleton _ _, ?_⟩
      intro a ha b hb
      rw [List.mem_singleton] at hb
      rw [hb]
      intro hsp
      exact hany (dedup_any_iff acc f |>.mpr ⟨a, ha, hsp⟩)

/-- The dedup fold only appends: accumulator members survive. -/
theorem mem_foldl_dedupStep_of_mem :
    ∀ (l acc : List FileFormat) (x : FileFormat), x ∈ acc → x ∈ l.foldl dedupStep acc := by
  intro l
  induction l with
  | nil => intro acc x h; exact h
  | cons f rest ih =>
    intro acc x h
    rw [List.foldl_cons]
    apply ih
    unfold dedupStep
    by_cases hany : acc.any (fun g => g.mime == f.mime && g.format == f.format) = true
    · rw [if_pos hany]; exact h
    · rw [if_neg hany]; exact List.mem_append_left _ h

/-- Every catalog entry produced by the dedup fold is either inherited
from the accumulator or is the first declaration with its pair. -/
theorem foldl_dedupStep_first_wins :
    ∀ (l acc : List FileFormat) (f : FileFormat), f ∈ l.foldl dedupStep acc →
      f ∈ acc ∨
        ∃ pre post, l = pre ++ f :: post ∧
          (∀ g ∈ pre, ¬ samePair g f) ∧ (∀ g ∈ acc, ¬ samePair g f) := by
  intro l
  induction l with
  | nil => intro acc f h; exact Or.inl h
  | cons x xs ih =>
    intro acc f h
    rw [List.foldl_cons] at h
    rcases ih (dedupStep acc x) f h with hmem | ⟨pre, post, heq, hpre, hacc⟩
    · unfold dedupStep at hmem
      by_cases hany : acc.any (fun g => g.mime == x.mime && g.format == x.format) = true
      · rw [if_pos hany] at hmem; exact Or.inl hmem
      · rw [if_neg hany] at hmem
        rcases List.mem_append.mp hmem with hmem | hmem
        · exact Or.inl hmem
        · rw [List.mem_singleton] at hmem
          subst hmem
          refine Or.inr ⟨[], xs, rfl, by simp, ?_⟩
          intro g hg hsp
          exact hany (dedup_any_iff acc f |>.mpr ⟨g, hg, hsp⟩)
    · have haccx : ∀ g ∈ acc, ¬ samePair g f := by
        intro g hg
        apply hacc
        unfold dedupStep
        by_cases hany : acc.any (fun g => g.mime == x.mime && g.format == x.format) = true
        · rw [if_pos hany]; exact hg
        · rw [if_neg hany]; exact List.mem_append_left _ hg
      have hxf : ¬ samePair x f := by
        by_cases hany : acc.any (fun g => g.mime == x.mime && g.format == x.format) = true
        · rcases (dedup_any_iff acc x).mp hany with ⟨g, hg, hgx⟩
          intro hxf
          exact haccx g hg (samePair_trans hgx hxf)
        · apply hacc
          unfold dedupStep
          rw [if_neg hany]
          exact List.mem_append_right _ (List.mem_singleton.mpr rfl)
      refine Or.inr ⟨x :: pre, post, by rw [heq]; rfl, ?_, haccx⟩
      intro g hg
      rcases List.mem_cons.mp hg with hg | hg
      · subst hg; exact hxf
      · exact hpre g hg

/-- Every declared format is represented in the dedup fold's result by an
entry with the same pair. -/
theorem foldl_dedupStep_represents :
    ∀ (l acc : List FileFormat) (g : FileFormat), g ∈ l →
      ∃ f ∈ l.foldl dedupStep acc, samePair f g := by
  intro l
  induction l with
  | nil => intro acc g h; exact absurd h (List.not_mem_nil g)
  | cons x xs ih =>
    intro acc g h
    rcases List.mem_cons.mp h with hg | hg
    · subst hg
      have : ∃ f ∈ dedupStep acc g, samePair f g := by
        unfold dedupStep
        by_cases hany : acc.any (fun h => h.mime == g.mime && h.format == g.format) = true
        · rw [if_pos hany]
          rcases (dedup_any_iff acc g).mp hany with ⟨f, hf, hfg⟩
          exact ⟨f, hf, hfg⟩
        · rw [if_neg hany]
          exact ⟨g, List.mem_append_right _ (List.mem_singleton.mpr rfl), ⟨rfl, rfl⟩⟩
      rcases this with ⟨f, hf, hfg⟩
      rw [List.foldl_cons]
      exact ⟨f, mem_foldl_dedupStep_of_mem xs _ f hf, hfg⟩
    · rw [List.foldl_cons]
      exact ih (dedupStep acc x) g hg

/-- The catalog of a fresh `initializeConverter` run is the sorted dedup
fold of the successful declarations. -/
theorem initializeConverter_formats_eq (classes : List HandlerClass)
    (lc : String → String → Ordering) :
    (initializeConverter classes lc initialState).formats =
      sortFormats lc ((successfulDecls classes).foldl dedupStep []) := by
  unfold initializeConverter
  rw [if_neg (by simp [initialState])]
  simp only [initLoop_allFormats]

/-- C4: after `initializeConverter` completes, the catalog never contains
two descriptors with the same `(mime, format-code)` pair; each entry is
the first declaration with its pair among the successfully initialized
handlers' declarations (in registration order), and every declared pair is
represented. -/
theorem catalog_dedup_first_wins (classes : List HandlerClass)
    (lc : String → String → Ordering) :
    List.Pairwise (fun a b => ¬ samePair a b)
      (initializeConverter classes lc initialState).formats ∧
    (∀ f ∈ (initializeConverter classes lc initialState).formats,
      ∃ pre post, successfulDecls classes = pre ++ f :: post ∧
        ∀ g ∈ pre, ¬ samePair g f) ∧
    (∀ g ∈ successfulDecls classes,
      ∃ f ∈ (initializeConverter classes lc initialState).formats, samePair f g) := by
  rw [initializeConverter_formats_eq]
  have hperm : (sortFormats lc ((successfulDecls classes).foldl dedupStep [])).Perm
      ((successfulDecls classes).foldl dedupStep []) :=
    List.perm_insertionSort _ _
  refine ⟨?_, ?_, ?_⟩
  · have hsym : ∀ {x y : FileFormat}, ¬ samePair x y → ¬ samePair y x := by
      intro x y h hsp
      exact h ⟨hsp.1.symm, hsp.2.symm⟩
    exact (hperm.pairwise_iff hsym).mpr
      (foldl_dedupStep_pairwise (successfulDecls classes) [] List.Pairwise.nil)
  · intro f hf
    have hf' := hperm.mem_iff.mp hf
    rcases foldl_dedupStep_first_wins (successfulDecls classes) [] f hf' with
      hmem | ⟨pre, post, heq, hpre, _⟩
    · exact absurd hmem (List.not_mem_nil f)
    · exact ⟨pre, post, heq, hpre⟩
  · intro g hg
    rcases foldl_dedupStep_represents (successfulDecls classes) [] g hg with ⟨f, hf, hfg⟩
    exact ⟨f, hperm.mem_iff.mpr hf, hfg⟩

/-- C8: a handler whose `init()` raises is absorbed (the run completes and
attempts every class in order), is excluded from the handler list (the
registry keeps exactly the successfully initialized handlers, in order),
contributes no formats to the catalog, and is never selected by routing
(`findHandler` only ever returns registered, successfully initialized
handlers). -/
theorem failed_handler_excluded (classes : List HandlerClass)
    (lc : String → String → Ordering) :
    (initializeConverter classes lc initialState).state.handlers =
      (classes.filter (fun c => c.initOk)).map (fun c => c.handler) ∧
    (initializeConverter classes lc initialState).initsRun =
      classes.map (fun c => c.handler.name) ∧
    (∀ f ∈ (initializeConverter classes lc initialState).formats,
      f ∈ successfulDecls classes) ∧
    (∀ (inF outF : FileFormat) (h : FormatHandler),
      findHandler (initializeConverter classes lc initialState).state.handlers inF outF =
        some h →
      h ∈ (classes.filter (fun c => c.initOk)).map (fun c => c.handler)) := by
  have hh : (initializeConverter classes lc initialState).state.handlers =
      (classes.filter (fun c => c.initOk)).map (fun c => c.handler) := by
    unfold initializeConverter
    rw [if_neg (by simp [initialState])]
    simp only [initLoop_handlers]
    rfl
  refine ⟨hh, ?_, ?_, ?_⟩
  · unfold initializeConverter
    rw [if_neg (by simp [initialState])]
    simp only [initLoop_initsRun]
    rfl
  · intro f hf
    rw [initializeConverter_formats_eq] at hf
    have hf' := (List.perm_insertionSort _ _).mem_iff.mp hf
    rcases foldl_dedupStep_first_wins (successfulDecls classes) [] f hf' with
      hmem | ⟨pre, post, heq, _, _⟩
    · exact absurd hmem (List.not_mem_nil f)
    · rw [heq]; exact List.mem_append_right _ (List.mem_cons_self f post)
  · intro inF outF h hfind
    rw [hh] at hfind
    exact List.mem_of_find?_eq_some hfind

/-! ## C10: catalog sort order -/

/-- Distinct categories have distinct positions in the fixed order. -/
theorem categoryIndex_inj :
    ∀ c d : Category, categoryIndex c = categoryIndex d → c = d := by
  intro c d h
  cases c <;> cases d <;> first | rfl | exact absurd h (by decide)

/-- The boolean comparator-≤ read logically: category position first, then
the locale comparison of display names. -/
theorem formatLe_iff (lc : String → String → Ordering) (a b : FileFormat) :
    (formatLe lc a b = true) ↔
      (if a.category = b.category then lc a.name b.name ≠ .gt
       else categoryIndex a.category ≤ categoryIndex b.category) := by
  unfold formatLe formatCompare
  by_cases h : a.category = b.category
  · simp only [h, ite_true, if_neg (by simp : ¬ b.category ≠ b.category)]
    cases hlc : lc a.name b.name <;> simp [hlc]
  · simp only [if_pos (by exact h : a.category ≠ b.category), if_neg h]
    rw [decide_eq_true_iff]
    omega

/-- Transitivity of the comparator-≤, given transitivity of the locale
comparison. -/
theorem formatLe_trans (lc : String → String → Ordering)
    (htrans : ∀ a b c, lc a b ≠ .gt → lc b c ≠ .gt → lc a c ≠ .gt) :
    ∀ a b c, formatLe lc a b = true → formatLe lc b c = true →
      formatLe lc a c = true := by
  intro a b c hab hbc
  rw [formatLe_iff] at hab hbc ⊢
  by_cases h1 : a.category = b.category <;> by_cases h2 : b.category = c.category
  · rw [if_pos h1] at hab
    rw [if_pos h2] at hbc
    rw [if_pos (h1.trans h2)]
    exact htrans _ _ _ hab hbc
  · rw [if_pos h1] at hab
    rw [if_neg h2] at hbc
    have hne : a.category ≠ c.category := by
      intro h; exact h2 (h1.symm.trans h)
    rw [if_neg hne]
    rw [h1]
    exact hbc
  · rw [if_neg h1] at hab
    rw [if_pos h2] at hbc
    have hne : a.category ≠ c.category := by
      intro h; exact h1 (h.trans h2.symm)
    rw [if_neg hne]
    rw [← h2]
    exact hab
  · rw [if_neg h1] at hab
    rw [if_neg h2] at hbc
    have hlt1 : categoryIndex a.category < categoryIndex b.category :=
      lt_of_le_of_ne hab (fun h => h1 (categoryIndex_inj _ _ h))
    have hlt2 : categoryIndex b.category < categoryIndex c.category :=
      lt_of_le_of_ne hbc (fun h => h2 (categoryIndex_inj _ _ h))
    have hne : a.category ≠ c.category := by
      intro h
      rw [h] at hlt1
      omega
    rw [if_neg hne]
    omega

/-- Totality of the comparator-≤, given totality of the locale
comparison. -/
theorem formatLe_total (lc : String → String → Ordering)
    (hlt : ∀ a b, lc a b ≠ .gt ∨ lc b a ≠ .gt) :
    ∀ a b, formatLe lc a b = true ∨ formatLe lc b a = true := by
  intro a b
  by_cases h : a.category = b.category
  · rcases hlt a.name b.name with hc | hc
    · exact Or.inl ((formatLe_iff lc a b).mpr (by rw [if_pos h]; exact hc))
    · exact Or.inr ((formatLe_iff lc b a).mpr (by rw [if_pos h.symm]; exact hc))
  · rcases Nat.le_total (categoryIndex a.category) (categoryIndex b.category) with
      hc | hc
    · exact Or.inl ((formatLe_iff lc a b).mpr (by rw [if_neg h]; exact hc))
    · exact Or.inr ((formatLe_iff lc b a).mpr
        (by rw [if_neg (fun hx => h hx.symm)]; exact hc))

/-- C10: from a fresh state, the catalog `initializeConverter` returns
(also via `getFormats` on the resulting state) is sorted: categories
appear in the fixed order image, video, audio, document, archive, other,
and entries within one category are ordered by display name; and
`findFormatByMime` is exactly a first-match scan of this sorted list. -/
theorem catalog_sorted (classes : List HandlerClass)
    (lc : String → String → Ordering)
    (hlt : ∀ a b, lc a b ≠ .gt ∨ lc b a ≠ .gt)
    (htrans : ∀ a b c, lc a b ≠ .gt → lc b c ≠ .gt → lc a c ≠ .gt) :
    List.Pairwise
      (fun a b =>
        (a.category = b.category ∧ lc a.name b.name ≠ .gt) ∨
          categoryIndex a.category < categoryIndex b.category)
      (initializeConverter classes lc initialState).formats ∧
    getFormats (initializeConverter classes lc initialState).state =
      (initializeConverter classes lc initialState).formats ∧
    (∀ m, findFormatByMime (initializeConverter classes lc initialState).state m =
      ((initializeConverter classes lc initialState).formats).find?
        (fun f => f.mime == normalizeMimeType m)) := by
  refine ⟨?_, rfl, fun m => rfl⟩
  rw [initializeConverter_formats_eq]
  unfold sortFormats
  haveI : IsTotal FileFormat (fun a b => formatLe lc a b = true) :=
    ⟨formatLe_total lc hlt⟩
  haveI : IsTrans FileFormat (fun a b => formatLe lc a b = true) :=
    ⟨formatLe_trans lc htrans⟩
  have hs := List.sorted_insertionSort (fun a b => formatLe lc a b = true)
    ((successfulDecls classes).foldl dedupStep [])
  refine hs.imp ?_
  intro a b hab
  rw [formatLe_iff] at hab
  by_cases h : a.category = b.category
  · rw [if_pos h] at hab
    exact Or.inl ⟨h, hab⟩
  · rw [if_neg h] at hab
    exact Or.inr (lt_of_le_of_ne hab (fun hx => h (categoryIndex_inj _ _ hx)))

/-- Witness for C10 with the constant-equal locale comparator and one
fixture handler class. -/
theorem catalog_sorted_witness :
    List.Pairwise
      (fun a b =>
        (a.category = b.category ∧ (fun _ _ => Ordering.eq) a.name b.name ≠ .gt) ∨
          categoryIndex a.category < categoryIndex b.category)
      (initializeConverter [goodClass] (fun _ _ => Ordering.eq) initialState).formats ∧
    getFormats
        (initializeConverter [goodClass] (fun _ _ => Ordering.eq) initialState).state =
      (initializeConverter [goodClass] (fun _ _ => Ordering.eq) initialState).formats ∧
    (∀ m,
      findFormatByMime
          (initializeConverter [goodClass] (fun _ _ => Ordering.eq) initialState).state
          m =
        ((initializeConverter [goodClass] (fun _ _ => Ordering.eq) initialState).formats).find?
          (fun f => f.mime == normalizeMimeType m)) :=
  catalog_sorted [goodClass] (fun _ _ => Ordering.eq)
    (fun a b => Or.inl (by simp))
    (fun a b c h1 h2 => by simp)

/-! ## BFS machinery: characterization of the scan loops -/

/-- Boolean conjunction read logically (helper). -/
theorem and_eq_true_iff {a b : Bool} : (a && b) = true ↔ a = true ∧ b = true := by
  simp

/-- Peeling one handler without `supportedFormats` off the outer scan. -/
theorem scanHandlers_cons_none (fromMime : String) (keep : FileFormat → Bool)
    (mk : FormatHandler → FileFormat → QItem) (h : FormatHandler)
    (hs : List FormatHandler) (acc : List String × List QItem)
    (hsf : h.supportedFormats = none) :
    scanHandlers (h :: hs) fromMime keep mk acc =
      scanHandlers hs fromMime keep mk acc := by
  simp only [scanHandlers, List.foldl_cons, hsf]

/-- Peeling one handler with declared formats off the outer scan. -/
theorem scanHandlers_cons_some (fromMime : String) (keep : FileFormat → Bool)
    (mk : FormatHandler → FileFormat → QItem) (h : FormatHandler)
    (hs : List FormatHandler) (fs : List FileFormat)
    (acc : List String × List QItem)
    (hsf : h.supportedFormats = some fs) :
    scanHandlers (h :: hs) fromMime keep mk acc =
      scanHandlers hs fromMime keep mk
        (if h.ready && fs.any (fun f => f.mime == fromMime && f.«from») then
          scanFormats keep (mk h) fs acc
        else acc) := by
  simp only [scanHandlers, List.foldl_cons, hsf]

/-- Full characterization of the inner format scan: it appends to both the
visited list and the queue, in lockstep; the new items' mimes are fresh
and pairwise distinct; every new item is `mk` of a kept declared format;
and every kept declared format's mime ends up visited. -/
theorem scanFormats_spec (keep : FileFormat → Bool) (mk : FileFormat → QItem)
    (hmk : ∀ f, (mk f).format = f) :
    ∀ (fs : List FileFormat) (v : List String) (q : List QItem),
      ∃ news : List QItem,
        scanFormats keep mk fs (v, q) =
          (v ++ news.map (fun i => i.format.mime), q ++ news) ∧
        (news.map (fun i => i.format.mime)).Nodup ∧
        (∀ i ∈ news, i.format.mime ∉ v) ∧
        (∀ i ∈ news, ∃ f ∈ fs, keep f = true ∧ i = mk f) ∧
        (∀ f ∈ fs, keep f = true →
          f.mime ∈ v ++ news.map (fun i => i.format.mime)) := by
  intro fs
  induction fs with
  | nil =>
    intro v q
    exact ⟨[], by simp [scanFormats], by simp, by simp, by simp, by simp⟩
  | cons f fs ih =>
    intro v q
    rw [scanFormats, List.foldl_cons, ← scanFormats]
    by_cases hcond : (keep f && !v.contains f.mime) = true
    · rw [if_pos hcond]
      rcases and_eq_true_iff.mp hcond with ⟨hkeep, hfresh⟩
      have hnotv : f.mime ∉ v := by
        intro hmem
        simp [hmem] at hfresh
      rcases ih (v ++ [f.mime]) (q ++ [mk f]) with
        ⟨news, heq, hnodup, hnot, hprod, hclos⟩
      refine ⟨mk f :: news, ?_, ?_, ?_, ?_, ?_⟩
      · rw [heq]
        simp [hmk]
      · simp only [List.map_cons, List.nodup_cons, hmk]
        refine ⟨?_, hnodup⟩
        intro hmem
        rcases List.mem_map.mp hmem with ⟨i, hi, hieq⟩
        have := hnot i hi
        rw [hieq] at this
        exact this (List.mem_append_right v (List.mem_singleton.mpr rfl))
      · intro i hi
        rcases List.mem_cons.mp hi with hi | hi
        · rw [hi, hmk]; exact hnotv
        · intro hmem
          exact hnot i hi (List.mem_append_left _ hmem)
      · intro i hi
        rcases List.mem_cons.mp hi with hi | hi
        · exact ⟨f, List.mem_cons_self f fs, hkeep, hi⟩
        · rcases hprod i hi with ⟨g, hg, hkg, hig⟩
          exact ⟨g, List.mem_cons_of_mem f hg, hkg, hig⟩
      · intro g hg hkg
        rcases List.mem_cons.mp hg with hg | hg
        · rw [hg]
          apply List.mem_append_right
          rw [List.map_cons, hmk]
          exact List.mem_cons_self _ _
        · have := hclos g hg hkg
          simp only [List.map_cons, hmk] at this ⊢
          rcases List.mem_append.mp this with hmem | hmem
          · rcases List.mem_append.mp hmem with hmem | hmem
            · exact List.mem_append_left _ hmem
            · rw [List.mem_singleton] at hmem
              rw [hmem]
              exact List.mem_append_right _ (List.mem_cons_self _ _)
          · exact List.mem_append_right _ (List.mem_cons_of_mem _ hmem)
    · rw [if_neg hcond]
      rcases ih v q with ⟨news, heq, hnodup, hnot, hprod, hclos⟩
      refine ⟨news, heq, hnodup, hnot, ?_, ?_⟩
      · intro i hi
        rcases hprod i hi with ⟨g, hg, hkg, hig⟩
        exact ⟨g, List.mem_cons_of_mem f hg, hkg, hig⟩
      · intro g hg hkg
        rcases List.mem_cons.mp hg with hg | hg
        · have hkf : keep f = true := by rw [← hg]; exact hkg
          have hcont : f.mime ∈ v := by
            cases hx : v.contains f.mime with
            | false => exact absurd (by rw [hkf, hx]; rfl) hcond
            | true => simpa using hx
          rw [hg]
          exact List.mem_append_left _ hcont
        · exact hclos g hg hkg

/-- Full characterization of the outer handler scan, composing
`scanFormats_spec` over the handler list. -/
theorem scanHandlers_spec (fromMime : String) (keep : FileFormat → Bool)
    (mk : FormatHandler → FileFormat → QItem)
    (hmk : ∀ h f, (mk h f).format = f) :
    ∀ (hs : List FormatHandler) (v : List String) (q : List QItem),
      ∃ news : List QItem,
        scanHandlers hs fromMime keep mk (v, q) =
          (v ++ news.map (fun i => i.format.mime), q ++ news) ∧
        (news.map (fun i => i.format.mime)).Nodup ∧
        (∀ i ∈ news, i.format.mime ∉ v) ∧
        (∀ i ∈ news, ∃ h ∈ hs, ∃ fs, h.supportedFormats = some fs ∧
          h.ready = true ∧ fs.any (fun f => f.mime == fromMime && f.«from») = true ∧
          ∃ f ∈ fs, keep f = true ∧ i = mk h f) ∧
        (∀ h ∈ hs, ∀ fs, h.supportedFormats = some fs → h.ready = true →
          fs.any (fun f => f.mime == fromMime && f.«from») = true →
          ∀ f ∈ fs, keep f = true →
          f.mime ∈ v ++ news.map (fun i => i.format.mime)) := by
  intro hs
  induction hs with
  | nil =>
    intro v q
    exact ⟨[], by simp [scanHandlers], by simp, by simp, by simp, by simp⟩
  | cons h hs ih =>
    intro v q
    cases hsf : h.supportedFormats with
    | none =>
      rw [scanHandlers_cons_none fromMime keep mk h hs _ hsf]
      rcases ih v q with ⟨news, heq, hnodup, hnot, hprod, hclos⟩
      refine ⟨news, heq, hnodup, hnot, ?_, ?_⟩
      · intro i hi
        rcases hprod i hi with ⟨h', hh', rest⟩
        exact ⟨h', List.mem_cons_of_mem h hh', rest⟩
      · intro h' hh' fs hsf' hready hany
        rcases List.mem_cons.mp hh' with hh' | hh'
        · subst hh'; rw [hsf] at hsf'; exact absurd hsf' (by simp)
        · exact hclos h' hh' fs hsf' hready hany
    | some fs =>
      rw [scanHandlers_cons_some fromMime keep mk h hs fs _ hsf]
      by_cases hcond :
          (h.ready && fs.any (fun f => f.mime == fromMime && f.«from»)) = true
      · rw [if_pos hcond]
        rcases and_eq_true_iff.mp hcond with ⟨hready, hany⟩
        rcases scanFormats_spec keep (mk h) (hmk h) fs v q with
          ⟨news₁, heq₁, hnodup₁, hnot₁, hprod₁, hclos₁⟩
        rw [heq₁]
        rcases ih (v ++ news₁.map (fun i => i.format.mime)) (q ++ news₁) with
          ⟨news₂, heq₂, hnodup₂, hnot₂, hprod₂, hclos₂⟩
        refine ⟨news₁ ++ news₂, ?_, ?_, ?_, ?_, ?_⟩
        · rw [heq₂]
          simp [List.append_assoc]
        · rw [List.map_append]
          rw [List.nodup_append]
          refine ⟨hnodup₁, hnodup₂, ?_⟩
          intro x hx₁ hx₂
          rcases List.mem_map.mp hx₂ with ⟨i, hi, hieq⟩
          have := hnot₂ i hi
          rw [hieq] at this
          exact this (List.mem_append_right _ hx₁)
        · intro i hi
          rcases List.mem_append.mp hi with hi | hi
          · exact hnot₁ i hi
          · intro hmem
            exact hnot₂ i hi (List.mem_append_left _ hmem)
        · intro i hi
          rcases List.mem_append.mp hi with hi | hi
          · rcases hprod₁ i hi with ⟨f, hf, hkf, hif⟩
            exact ⟨h, List.mem_cons_self h hs, fs, hsf, hready, hany, f, hf, hkf, hif⟩
          · rcases hprod₂ i hi with ⟨h', hh', rest⟩
            exact ⟨h', List.mem_cons_of_mem h hh', rest⟩
        · intro h' hh' fs' hsf' hready' hany' f hf hkf
          rcases List.mem_cons.mp hh' with hh' | hh'
          · subst hh'
            rw [hsf] at hsf'
            have hfs : fs' = fs := by
              injection hsf' with hx
              exact hx.symm
            subst hfs
            have := hclos₁ f hf hkf
            rw [List.map_append, ← List.append_assoc]
            exact List.mem_append_left _ this
          · have := hclos₂ h' hh' fs' hsf' hready' hany' f hf hkf
            rw [List.map_append, ← List.append_assoc]
            exact this
      · rw [if_neg hcond]
        rcases ih v q with ⟨news, heq, hnodup, hnot, hprod, hclos⟩
        refine ⟨news, heq, hnodup, hnot, ?_, ?_⟩
        · intro i hi
          rcases hprod i hi with ⟨h', hh', rest⟩
          exact ⟨h', List.mem_cons_of_mem h hh', rest⟩
        · intro h' hh' fs' hsf' hready' hany'
          rcases List.mem_cons.mp hh' with hh' | hh'
          · subst hh'
            rw [hsf] at hsf'
            have hfs : fs' = fs := by
              injection hsf' with hx
              exact hx.symm
            subst hfs
            exact absurd (and_eq_true_iff.mpr ⟨hready', hany'⟩) hcond
          · exact hclos h' hh' fs' hsf' hready' hany'

/-- Mimes declared by a registered handler belong to the mime pool. -/
theorem mem_mimePool (hs : List FormatHandler) (h : FormatHandler)
    (fs : List FileFormat) (f : FileFormat)
    (hh : h ∈ hs) (hsf : h.supportedFormats = some fs) (hf : f ∈ fs) :
    f.mime ∈ mimePool hs := by
  induction hs with
  | nil => exact absurd hh (List.not_mem_nil h)
  | cons h' hs ih =>
    rw [mimePool, List.foldr_cons, ← mimePool]
    rcases List.mem_cons.mp hh with hh | hh
    · subst hh
      rw [hsf]
      exact List.mem_append_left _ (List.mem_map.mpr ⟨f, hf, rfl⟩)
    · exact List.mem_append_right _ (ih hh)

/-- Filtering by a stronger predicate that additionally excludes a present
element makes the filtered list strictly shorter. -/
theorem length_filter_lt_of_witness {α : Type} (l : List α) (p q : α → Bool)
    (himp : ∀ a, q a = true → p a = true) (x : α) (hx : x ∈ l)
    (hpx : p x = true) (hqx : q x = false) :
    (l.filter q).length < (l.filter p).length := by
  induction l with
  | nil => exact absurd hx (List.not_mem_nil x)
  | cons a l ih =>
    have hmono : ∀ (l' : List α), (l'.filter q).length ≤ (l'.filter p).length := by
      intro l'
      induction l' with
      | nil => simp
      | cons b l' ihm =>
        by_cases hqb : q b = true
        · simp [List.filter_cons, hqb, himp b hqb]
          omega
        · have hqb' : q b = false := Bool.not_eq_true _ |>.mp hqb
          by_cases hpb : p b = true
          · simp [List.filter_cons, hqb', hpb]
            omega
          · have hpb' : p b = false := Bool.not_eq_true _ |>.mp hpb
            simp [List.filter_cons, hqb', hpb']
            exact ihm
    rcases List.mem_cons.mp hx with hax | hax
    · subst hax
      simp [List.filter_cons, hpx, hqx]
      have := hmono l
      omega
    · by_cases hqa : q a = true
      · have hane : a ≠ x := by
          intro he
          rw [he, hqx] at hqa
          exact Bool.false_ne_true hqa
        simp [List.filter_cons, hqa, himp a hqa]
        exact ih hax
      · have hqa' : q a = false := Bool.not_eq_true _ |>.mp hqa
        by_cases hpa : p a = true
        · simp [List.filter_cons, hqa', hpa]
          have := ih hax
          omega
        · have hpa' : p a = false := Bool.not_eq_true _ |>.mp hpa
          simp [List.filter_cons, hqa', hpa']
          exact ih hax

/-- Marking one fresh pool mime as visited strictly decreases the count of
unvisited pool mimes. -/
theorem freshCount_push (pool v : List String) (x : String)
    (hx : x ∈ pool) (hxv : x ∉ v) :
    freshCount pool (v ++ [x]) + 1 ≤ freshCount pool v := by
  unfold freshCount
  have hlt := length_filter_lt_of_witness pool.dedup
    (fun m => !v.contains m) (fun m => !(v ++ [x]).contains m)
    (by
      intro a ha
      simp only [Bool.not_eq_true'] at ha ⊢
      simp only [List.contains_eq_any_beq] at ha ⊢
      rcases List.any_eq_false.mp ha with h
      apply List.any_eq_false.mpr
      intro y hy
      exact h y (List.mem_append_left _ hy))
    x (List.mem_dedup.mpr hx)
    (by simp [hxv])
    (by simp)
  omega

/-- Marking a fresh, duplicate-free batch of pool mimes as visited
decreases the unvisited count by at least the batch size. -/
theorem freshCount_append (pool : List String) :
    ∀ (m : List String) (v : List String), m.Nodup →
      (∀ x ∈ m, x ∈ pool ∧ x ∉ v) →
      freshCount pool (v ++ m) + m.length ≤ freshCount pool v := by
  intro m
  induction m with
  | nil => intro v _ _; simp
  | cons x m ih =>
    intro v hnodup hmem
    have hx := hmem x (List.mem_cons_self x m)
    have hstep := freshCount_push pool v x hx.1 hx.2
    have hrest := ih (v ++ [x]) (List.nodup_cons.mp hnodup).2
      (by
        intro y hy
        have hym := hmem y (List.mem_cons_of_mem x hy)
        refine ⟨hym.1, ?_⟩
        intro hmem'
        rcases List.mem_append.mp hmem' with h | h
        · exact hym.2 h
        · rw [List.mem_singleton] at h
          exact (List.nodup_cons.mp hnodup).1 (h ▸ hy))
    have heq : v ++ x :: m = (v ++ [x]) ++ m := by simp
    rw [heq, List.length_cons]
    omega

/-- The BFS loop never exhausts fuel of at least
`queue length + unvisited pool mimes + 1`: each iteration either dequeues
without enqueuing, or enqueues only items whose mimes were unvisited pool
members. -/
theorem bfsLoop_measure_ne_none (hs : List FormatHandler) (outF : FileFormat)
    (maxD : Nat) :
    ∀ (fuel : Nat) (q : List QItem) (v : List String),
      q.length + freshCount (mimePool hs) v + 1 ≤ fuel →
      bfsLoop hs outF maxD fuel q v ≠ none := by
  intro fuel
  induction fuel with
  | zero => intro q v hle; omega
  | succ fuel ih =>
    intro q v hle
    cases q with
    | nil => simp [bfsLoop]
    | cons cur rest =>
      rw [bfsLoop]
      by_cases hskip : maxD ≤ cur.path.length
      · rw [if_pos hskip]
        apply ih
        simp only [List.length_cons] at hle
        omega
      · rw [if_neg hskip]
        cases hfind : findHandler hs cur.format outF with
        | some h => simp
        | none =>
          rcases scanHandlers_spec cur.format.mime (fun f => f.«to»)
              (fun h f => ⟨f, cur.path ++ [⟨h, cur.format, f⟩]⟩)
              (fun h f => rfl) hs v [] with
            ⟨news, heq, hnodup, hnot, hprod, _⟩
          have hexp : expandAll hs cur v =
              (v ++ news.map (fun i => i.format.mime), news) := by
            unfold expandAll
            rw [heq]
            simp
          simp only [hexp]
          apply ih
          have hpool : ∀ x ∈ news.map (fun i => i.format.mime),
              x ∈ mimePool hs ∧ x ∉ v := by
            intro x hx
            rcases List.mem_map.mp hx with ⟨i, hi, hieq⟩
            rcases hprod i hi with ⟨h, hh, fs, hsf, _, _, f, hf, _, hif⟩
            have hfmt : i.format = f := by rw [hif]
            refine ⟨?_, hieq ▸ hnot i hi⟩
            rw [← hieq, hfmt]
            exact mem_mimePool hs h fs f hh hsf hf
          have hcnt := freshCount_append (mimePool hs)
            (news.map (fun i => i.format.mime)) v hnodup hpool
          simp only [List.length_append, List.length_cons, List.length_map] at hle hcnt ⊢
          omega

/-- C9: `findConversionPath` terminates on every capability graph,
including cyclic ones: with the fuel it supplies — queue length plus the
number of unvisited pool mimes plus one — the BFS loop never exhausts its
fuel, because the visited list lets each mime be enqueued at most once, so
the queue empties after finitely many iterations. -/
theorem bfs_terminates (hs : List FormatHandler) (inF outF : FileFormat)
    (maxDepth : Nat) :
    bfsLoop hs outF maxDepth
      ((seedAll hs inF).2.length + freshCount (mimePool hs) (seedAll hs inF).1 + 1)
      (seedAll hs inF).2 (seedAll hs inF).1 ≠ none :=
  bfsLoop_measure_ne_none hs outF maxDepth _ _ _ (le_refl _)

/-! ## C1: soundness of the pathfinder -/

/-- The capability edge relation read logically. -/
theorem edgeB_iff (hs : List FormatHandler) (a b : String) :
    edgeB hs a b = true ↔
      ∃ h ∈ hs, h.ready = true ∧ canFrom h a = true ∧ canTo h b = true := by
  unfold edgeB
  rw [List.any_eq_true]
  constructor
  · rintro ⟨h, hh, hp⟩
    rcases and_eq_true_iff.mp hp with ⟨hp1, hto⟩
    rcases and_eq_true_iff.mp hp1 with ⟨hr, hcf⟩
    exact ⟨h, hh, hr, hcf, hto⟩
  · rintro ⟨h, hh, hr, hcf, hto⟩
    exact ⟨h, hh, and_eq_true_iff.mpr ⟨and_eq_true_iff.mpr ⟨hr, hcf⟩, hto⟩⟩

/-- `findHandler` finds nothing exactly when the capability graph has no
edge between the two mimes. -/
theorem findHandler_eq_none_iff (hs : List FormatHandler) (i o : FileFormat) :
    findHandler hs i o = none ↔ edgeB hs i.mime o.mime = false := by
  unfold findHandler edgeB
  rw [List.find?_eq_none, List.any_eq_false]

/-- What a successful `findHandler` guarantees about the found handler. -/
theorem findHandler_some_spec (hs : List FormatHandler) (i o : FileFormat)
    (h : FormatHandler) (hf : findHandler hs i o = some h) :
    h ∈ hs ∧ h.ready = true ∧ canFrom h i.mime = true ∧ canTo h o.mime = true := by
  have hmem := List.mem_of_find?_eq_some hf
  have hp := List.find?_some hf
  rcases and_eq_true_iff.mp hp with ⟨hp1, hto⟩
  rcases and_eq_true_iff.mp hp1 with ⟨hr, hcf⟩
  exact ⟨hmem, hr, hcf, hto⟩

/-- Extending a realizable chain by one realizable step. -/
theorem chainFrom_snoc (hs : List FormatHandler) :
    ∀ (steps : List ConversionStep) (a b : FileFormat) (st : ConversionStep),
      chainFrom hs a steps b → st.inputFormat = b → stepOk hs st →
      chainFrom hs a (steps ++ [st]) st.outputFormat := by
  intro steps
  induction steps with
  | nil =>
    intro a b st hc hin hok
    exact ⟨by rw [hin, ← hc], hok, rfl⟩
  | cons s rest ih =>
    intro a b st hc hin hok
    obtain ⟨h1, h2, h3⟩ := hc
    exact ⟨h1, h2, ih _ _ _ h3 hin hok⟩

/-- A realizable chain witnesses a capability-graph path of the same
length between the endpoint mimes. -/
theorem chainFrom_pathLen (hs : List FormatHandler) :
    ∀ (steps : List ConversionStep) (a b : FileFormat),
      chainFrom hs a steps b → PathLen hs a.mime b.mime steps.length := by
  intro steps
  induction steps with
  | nil =>
    intro a b hc
    show a.mime = b.mime
    rw [hc]
  | cons s rest ih =>
    intro a b hc
    obtain ⟨h1, hok, h3⟩ := hc
    refine ⟨s.outputFormat.mime, ?_, ih _ _ h3⟩
    exact (edgeB_iff hs a.mime s.outputFormat.mime).mpr
      ⟨s.handler, hok.1, hok.2.1, by rw [← h1]; exact hok.2.2.1, hok.2.2.2⟩

/-- Validity of the items produced by one expansion of the BFS. -/
theorem expandAll_item_valid (hs : List FormatHandler) (inF : FileFormat)
    (cur : QItem) (news : List QItem)
    (hprod : ∀ i ∈ news, ∃ h ∈ hs, ∃ fs, h.supportedFormats = some fs ∧
      h.ready = true ∧
      fs.any (fun f => f.mime == cur.format.mime && f.«from») = true ∧
      ∃ f ∈ fs, f.«to» = true ∧ i = ⟨f, cur.path ++ [⟨h, cur.format, f⟩]⟩)
    (hcur : chainFrom hs inF cur.path cur.format) :
    ∀ i ∈ news, chainFrom hs inF i.path i.format ∧ 1 ≤ i.path.length := by
  intro i hi
  rcases hprod i hi with ⟨h, hh, fs, hsf, hready, hany, f, hf, hto, hif⟩
  have hcf : canFrom h cur.format.mime = true := by
    unfold canFrom
    rw [hsf]
    exact hany
  have hct : canTo h f.mime = true := by
    unfold canTo
    rw [hsf]
    exact List.any_eq_true.mpr ⟨f, hf, by simp [hto]⟩
  have hok : stepOk hs (⟨h, cur.format, f⟩ : ConversionStep) := ⟨hh, hready, hcf, hct⟩
  have hchain := chainFrom_snoc hs cur.path inF cur.format
    ⟨h, cur.format, f⟩ hcur rfl hok
  rw [hif]
  exact ⟨hchain, by simp⟩

/-- The characterization of `expandAll` obtained from the scan lemmas. -/
theorem expandAll_spec (hs : List FormatHandler) (cur : QItem) (v : List String) :
    ∃ news : List QItem,
      expandAll hs cur v = (v ++ news.map (fun i => i.format.mime), news) ∧
      (news.map (fun i => i.format.mime)).Nodup ∧
      (∀ i ∈ news, i.format.mime ∉ v) ∧
      (∀ i ∈ news, ∃ h ∈ hs, ∃ fs, h.supportedFormats = some fs ∧
        h.ready = true ∧
        fs.any (fun f => f.mime == cur.format.mime && f.«from») = true ∧
        ∃ f ∈ fs, f.«to» = true ∧ i = ⟨f, cur.path ++ [⟨h, cur.format, f⟩]⟩) ∧
      (∀ h ∈ hs, ∀ fs, h.supportedFormats = some fs → h.ready = true →
        fs.any (fun f => f.mime == cur.format.mime && f.«from») = true →
        ∀ f ∈ fs, f.«to» = true →
        f.mime ∈ v ++ news.map (fun i => i.format.mime)) := by
  rcases scanHandlers_spec cur.format.mime (fun f => f.«to»)
      (fun h f => ⟨f, cur.path ++ [⟨h, cur.format, f⟩]⟩)
      (fun h f => rfl) hs v [] with
    ⟨news, heq, hnodup, hnot, hprod, hclos⟩
  refine ⟨news, ?_, hnodup, hnot, hprod, hclos⟩
  unfold expandAll
  rw [heq]
  simp

/-- Soundness of the BFS loop: a found path is a realizable chain from the
source to the destination of length between 1 and `maxDepth`, provided
every queue item carries a realizable chain. -/
theorem bfsLoop_sound (hs : List FormatHandler) (inF outF : FileFormat) (maxD : Nat) :
    ∀ (fuel : Nat) (q : List QItem) (v : List String) (p : ConversionPath),
      bfsLoop hs outF maxD fuel q v = some (some p) →
      (∀ i ∈ q, chainFrom hs inF i.path i.format ∧ 1 ≤ i.path.length) →
      chainFrom hs inF p.steps outF ∧ 1 ≤ p.steps.length ∧ p.steps.length ≤ maxD := by
  intro fuel
  induction fuel with
  | zero =>
    intro q v p h _
    simp [bfsLoop] at h
  | succ fuel ih =>
    intro q v p h hvalid
    cases q with
    | nil => simp [bfsLoop] at h
    | cons cur rest =>
      rw [bfsLoop] at h
      by_cases hskip : maxD ≤ cur.path.length
      · rw [if_pos hskip] at h
        exact ih rest v p h (fun i hi => hvalid i (List.mem_cons_of_mem cur hi))
      · rw [if_neg hskip] at h
        cases hfind : findHandler hs cur.format outF with
        | some hd =>
          simp only [hfind, Option.some.injEq] at h
          rcases findHandler_some_spec hs cur.format outF hd hfind with
            ⟨hmem, hready, hcf, hct⟩
          have hcur := hvalid cur (List.mem_cons_self cur rest)
          have hchain := chainFrom_snoc hs cur.path inF cur.format
            ⟨hd, cur.format, outF⟩ hcur.1 rfl ⟨hmem, hready, hcf, hct⟩
          rw [← h]
          refine ⟨hchain, by simp, ?_⟩
          simp only [List.length_append, List.length_singleton]
          omega
        | none =>
          simp only [hfind] at h
          rcases expandAll_spec hs cur v with ⟨news, hexp, _, _, hprod, _⟩
          simp only [hexp] at h
          apply ih _ _ _ h
          intro i hi
          rcases List.mem_append.mp hi with hi | hi
          · exact hvalid i (List.mem_cons_of_mem cur hi)
          · exact expandAll_item_valid hs inF cur news hprod
              (hvalid cur (List.mem_cons_self cur rest)).1 i hi

/-- Validity of the seeded queue items. -/
theorem seedAll_item_valid (hs : List FormatHandler) (inF : FileFormat)
    (news : List QItem)
    (hprod : ∀ i ∈ news, ∃ h ∈ hs, ∃ fs, h.supportedFormats = some fs ∧
      h.ready = true ∧
      fs.any (fun f => f.mime == inF.mime && f.«from») = true ∧
      ∃ f ∈ fs, (f.«to» && f.mime != inF.mime) = true ∧ i = ⟨f, [⟨h, inF, f⟩]⟩) :
    ∀ i ∈ news, chainFrom hs inF i.path i.format ∧ 1 ≤ i.path.length := by
  intro i hi
  rcases hprod i hi with ⟨h, hh, fs, hsf, hready, hany, f, hf, hkeep, hif⟩
  rcases and_eq_true_iff.mp hkeep with ⟨hto, _⟩
  have hcf : canFrom h inF.mime = true := by
    unfold canFrom
    rw [hsf]
    exact hany
  have hct : canTo h f.mime = true := by
    unfold canTo
    rw [hsf]
    exact List.any_eq_true.mpr ⟨f, hf, by simp [hto]⟩
  rw [hif]
  exact ⟨⟨rfl, ⟨hh, hready, hcf, hct⟩, rfl⟩, by simp⟩

/-- The characterization of `seedAll` obtained from the scan lemmas. -/
theorem seedAll_spec (hs : List FormatHandler) (inF : FileFormat) :
    ∃ news : List QItem,
      seedAll hs inF = (news.map (fun i => i.format.mime), news) ∧
      (news.map (fun i => i.format.mime)).Nodup ∧
      (∀ i ∈ news, ∃ h ∈ hs, ∃ fs, h.supportedFormats = some fs ∧
        h.ready = true ∧
        fs.any (fun f => f.mime == inF.mime && f.«from») = true ∧
        ∃ f ∈ fs, (f.«to» && f.mime != inF.mime) = true ∧ i = ⟨f, [⟨h, inF, f⟩]⟩) ∧
      (∀ h ∈ hs, ∀ fs, h.supportedFormats = some fs → h.ready = true →
        fs.any (fun f => f.mime == inF.mime && f.«from») = true →
        ∀ f ∈ fs, (f.«to» && f.mime != inF.mime) = true →
        f.mime ∈ news.map (fun i => i.format.mime)) := by
  rcases scanHandlers_spec inF.mime (fun f => f.«to» && f.mime != inF.mime)
      (fun h f => ⟨f, [⟨h, inF, f⟩]⟩)
      (fun h f => rfl) hs [] [] with
    ⟨news, heq, hnodup, _, hprod, hclos⟩
  refine ⟨news, ?_, hnodup, hprod, ?_⟩
  · unfold seedAll
    rw [heq]
    simp
  · intro h hh fs hsf hready hany f hf hkeep
    have := hclos h hh fs hsf hready hany f hf hkeep
    simpa using this

/-- Constant-valued lists are sorted (helper). -/
theorem pairwise_le_of_const {α : Type} (f : α → Nat) (c : Nat) :
    ∀ (l : List α), (∀ x ∈ l, f x = c) →
      List.Pairwise (fun a b => f a ≤ f b) l := by
  intro l
  induction l with
  | nil => intro _; exact List.Pairwise.nil
  | cons x xs ih =>
    intro hx
    rw [List.pairwise_cons]
    refine ⟨?_, ih (fun y hy => hx y (List.mem_cons_of_mem x hy))⟩
    intro y hy
    rw [hx x (List.mem_cons_self x xs), hx y (List.mem_cons_of_mem x hy)]

/-- One expansion step of the BFS preserves the loop invariant: the
dequeued head is expanded (no bridge existed), its fresh successors are
appended at depth one deeper, and the ghost depth map is extended on the
newly visited mimes. -/
theorem bfsInv_step (hs : List FormatHandler) (inF outF : FileFormat) (maxD : Nat)
    (cur : QItem) (rest : List QItem) (v : List String) (ℓ : String → Nat)
    (news : List QItem)
    (inv : BfsInv hs inF outF maxD (cur :: rest) v ℓ)
    (hfind : findHandler hs cur.format outF = none)
    (hnodup : (news.map (fun i => i.format.mime)).Nodup)
    (hnotv : ∀ i ∈ news, i.format.mime ∉ v)
    (hprod : ∀ i ∈ news, ∃ h ∈ hs, ∃ fs, h.supportedFormats = some fs ∧
      h.ready = true ∧
      fs.any (fun f => f.mime == cur.format.mime && f.«from») = true ∧
      ∃ f ∈ fs, f.«to» = true ∧ i = ⟨f, cur.path ++ [⟨h, cur.format, f⟩]⟩)
    (hclos : ∀ h ∈ hs, ∀ fs, h.supportedFormats = some fs → h.ready = true →
      fs.any (fun f => f.mime == cur.format.mime && f.«from») = true →
      ∀ f ∈ fs, f.«to» = true →
      f.mime ∈ v ++ news.map (fun i => i.format.mime)) :
    BfsInv hs inF outF maxD (rest ++ news) (v ++ news.map (fun i => i.format.mime))
      (fun m => if m ∈ news.map (fun i => i.format.mime)
        then cur.path.length + 1 else ℓ m) := by
  have hlen_news : ∀ i ∈ news, i.path.length = cur.path.length + 1 := by
    intro i hi
    rcases hprod i hi with ⟨h, _, fs, _, _, _, f, _, _, hif⟩
    rw [hif]
    simp
  have hmime_news : ∀ i ∈ news,
      i.format.mime ∈ news.map (fun i => i.format.mime) :=
    fun i hi => List.mem_map_of_mem _ hi
  have hrest_v : ∀ i ∈ rest, i.format.mime ∈ v :=
    fun i hi => inv.qv i (List.mem_cons_of_mem cur hi)
  have hM_not_v : ∀ x ∈ news.map (fun i => i.format.mime), x ∉ v := by
    intro x hx
    rcases List.mem_map.mp hx with ⟨i, hi, hieq⟩
    rw [← hieq]
    exact hnotv i hi
  have hspread_old : ∀ i ∈ cur :: rest, i.path.length ≤ cur.path.length + 1 :=
    inv.qspread cur rfl
  have hsorted_tail : ∀ i ∈ rest, cur.path.length ≤ i.path.length :=
    (List.pairwise_cons.mp inv.qsorted).1
  have hvbound_old : ∀ m ∈ v, ℓ m ≤ cur.path.length + 1 := inv.vbound cur rfl
  have hcur_len : ℓ cur.format.mime = cur.path.length :=
    inv.qlen cur (List.mem_cons_self cur rest)
  have hheadmem : ∀ hd : QItem, (rest ++ news).head? = some hd →
      hd ∈ rest ++ news ∧ cur.path.length ≤ hd.path.length := by
    intro hd hhd
    have hdmem : hd ∈ rest ++ news := by
      cases hq : rest ++ news with
      | nil => rw [hq] at hhd; exact absurd hhd (by simp)
      | cons a t =>
        rw [hq, List.head?_cons] at hhd
        injection hhd with hhd
        rw [hhd]
        exact List.mem_cons_self _ _
    refine ⟨hdmem, ?_⟩
    rcases List.mem_append.mp hdmem with h | h
    · exact hsorted_tail hd h
    · rw [hlen_news hd h]; omega
  refine ⟨?_, ?_, ?_, ?_, ?_, ?_, ?_, ?_⟩
  · intro i hi
    rcases List.mem_append.mp hi with hi | hi
    · exact List.mem_append_left _ (hrest_v i hi)
    · exact List.mem_append_right _ (hmime_news i hi)
  · rw [List.map_append, List.nodup_append]
    have h0 := inv.qnodup
    rw [List.map_cons] at h0
    refine ⟨(List.nodup_cons.mp h0).2, hnodup, ?_⟩
    intro x hx hx'
    rcases List.mem_map.mp hx with ⟨i, hi, hieq⟩
    exact hM_not_v x hx' (hieq ▸ hrest_v i hi)
  · intro i hi
    rcases List.mem_append.mp hi with hi | hi
    · exact inv.qvalid i (List.mem_cons_of_mem cur hi)
    · exact expandAll_item_valid hs inF cur news hprod
        (inv.qvalid cur (List.mem_cons_self cur rest)).1 i hi
  · rw [List.pairwise_append]
    refine ⟨(List.pairwise_cons.mp inv.qsorted).2, ?_, ?_⟩
    · exact pairwise_le_of_const (fun i => i.path.length)
        (cur.path.length + 1) news hlen_news
    · intro a ha b hb
      rw [hlen_news b hb]
      exact hspread_old a (List.mem_cons_of_mem cur ha)
  · intro hd hhd i hi
    rcases hheadmem hd hhd with ⟨_, hdlen⟩
    have hilen : i.path.length ≤ cur.path.length + 1 := by
      rcases List.mem_append.mp hi with h | h
      · exact hspread_old i (List.mem_cons_of_mem cur h)
      · rw [hlen_news i h]
    omega
  · intro hd hhd m hm
    rcases hheadmem hd hhd with ⟨_, hdlen⟩
    by_cases hmM : m ∈ news.map (fun i => i.format.mime)
    · rw [if_pos hmM]; omega
    · rw [if_neg hmM]
      rcases List.mem_append.mp hm with hm | hm
      · have := hvbound_old m hm; omega
      · exact absurd hm hmM
  · intro i hi
    rcases List.mem_append.mp hi with hi | hi
    · have hiv := hrest_v i hi
      rw [if_neg (fun hx => hM_not_v _ hx hiv)]
      exact inv.qlen i (List.mem_cons_of_mem cur hi)
    · rw [if_pos (hmime_news i hi)]
      exact (hlen_news i hi).symm
  · intro m hm hmq
    rcases List.mem_append.mp hm with hmv | hmM
    swap
    · exact absurd
        (by rw [List.map_append]; exact List.mem_append_right _ hmM) hmq
    have hmnotM : m ∉ news.map (fun i => i.format.mime) :=
      fun hx => hM_not_v m hx hmv
    rw [if_neg hmnotM]
    by_cases hmcur : m = cur.format.mime
    · subst hmcur
      refine Or.inr ⟨(findHandler_eq_none_iff hs cur.format outF).mp hfind, ?_⟩
      intro u hu
      rcases (edgeB_iff hs cur.format.mime u).mp hu with ⟨h, hh, hready, hcf, hct⟩
      cases hsf : h.supportedFormats with
      | none =>
        unfold canFrom at hcf
        rw [hsf] at hcf
        exact absurd hcf (by simp)
      | some fs =>
        have hany : fs.any (fun f => f.mime == cur.format.mime && f.«from») = true := by
          unfold canFrom at hcf
          rw [hsf] at hcf
          exact hcf
        have hctf : ∃ f ∈ fs, f.mime = u ∧ f.«to» = true := by
          unfold canTo at hct
          rw [hsf] at hct
          rcases List.any_eq_true.mp hct with ⟨f, hf, hp⟩
          rcases and_eq_true_iff.mp hp with ⟨hbeq, hto⟩
          exact ⟨f, hf, eq_of_beq hbeq, hto⟩
        rcases hctf with ⟨f, hf, hfm, hto⟩
        have humem : u ∈ v ++ news.map (fun i => i.format.mime) := by
          rw [← hfm]
          exact hclos h hh fs hsf hready hany f hf hto
        refine ⟨humem, ?_⟩
        by_cases huM : u ∈ news.map (fun i => i.format.mime)
        · rw [if_pos huM, hcur_len]
        · rw [if_neg huM]
          rcases List.mem_append.mp humem with h' | h'
          · have := hvbound_old u h'
            rw [hcur_len]
            omega
          · exact absurd h' huM
    · have hmq_old : m ∉ (cur :: rest).map (fun i => i.format.mime) := by
        rw [List.map_cons]
        intro hx
        rcases List.mem_cons.mp hx with hx | hx
        · exact hmcur hx
        · exact hmq (by rw [List.map_append]; exact List.mem_append_left _ hx)
      rcases inv.closed m hmv hmq_old with hskip | ⟨hne, hcl⟩
      · exact Or.inl hskip
      · refine Or.inr ⟨hne, ?_⟩
        intro u hu
        rcases hcl u hu with ⟨huv, huℓ⟩
        have hunotM : u ∉ news.map (fun i => i.format.mime) :=
          fun hx => hM_not_v u hx huv
        rw [if_neg hunotM]
        exact ⟨List.mem_append_left _ huv, huℓ⟩

/-- A mime still queued was discovered at depth at least the head's depth,
so its ghost depth cannot be below `k` when the head is already at depth
`k` or deeper. -/
theorem bfs_inqueue_contra (hs : List FormatHandler) (inF outF : FileFormat)
    (maxD k : Nat) (q : List QItem) (v : List String) (ℓ : String → Nat)
    (inv : BfsInv hs inF outF maxD q v ℓ)
    (hhd : ∀ hd, q.head? = some hd → k ≤ hd.path.length)
    (w : String) (hwq : w ∈ q.map (fun i => i.format.mime)) (hlt : ℓ w < k) :
    False := by
  rcases List.mem_map.mp hwq with ⟨i, hi, himime⟩
  cases q with
  | nil => exact absurd hi (List.not_mem_nil i)
  | cons hd rest =>
    have hk := hhd hd rfl
    have hmin : hd.path.length ≤ i.path.length := by
      rcases List.pairwise_cons.mp inv.qsorted with ⟨hall, _⟩
      rcases List.mem_cons.mp hi with hi' | hi'
      · rw [hi']
      · exact hall i hi'
    have hlen := inv.qlen i hi
    rw [himime] at hlen
    omega

/-- If the queue is exhausted (or its head is already at depth `k`), no
visited mime of ghost depth `d` with a remaining path of `m + 1` edges to
the destination and `d + m + 1 ≤ k ≤ maxDepth` can exist: walking the path
through closed nodes reaches a node bridging to the destination, which a
closed node cannot be. -/
theorem bfs_blocked_contra (hs : List FormatHandler) (inF outF : FileFormat)
    (maxD k : Nat) (q : List QItem) (v : List String) (ℓ : String → Nat)
    (inv : BfsInv hs inF outF maxD q v ℓ)
    (hhd : ∀ hd, q.head? = some hd → k ≤ hd.path.length)
    (hkmd : k ≤ maxD) :
    ∀ (m : Nat) (w : String), PathLen hs w outF.mime (m + 1) → w ∈ v →
      ℓ w + (m + 1) ≤ k → False := by
  intro m
  induction m with
  | zero =>
    intro w hpath hwv hbudget
    rcases hpath with ⟨c, hedge, hc⟩
    have hc' : c = outF.mime := hc
    subst hc'
    by_cases hwq : w ∈ q.map (fun i => i.format.mime)
    · exact bfs_inqueue_contra hs inF outF maxD k q v ℓ inv hhd w hwq (by omega)
    · rcases inv.closed w hwv hwq with hskip | ⟨hnoedge, _⟩
      · omega
      · rw [hnoedge] at hedge
        exact Bool.false_ne_true hedge
  | succ m ih =>
    intro w hpath hwv hbudget
    rcases hpath with ⟨c, hedge, hrest⟩
    by_cases hwq : w ∈ q.map (fun i => i.format.mime)
    · exact bfs_inqueue_contra hs inF outF maxD k q v ℓ inv hhd w hwq (by omega)
    · rcases inv.closed w hwv hwq with hskip | ⟨_, hcl⟩
      · omega
      · rcases hcl c hedge with ⟨hcv, hcℓ⟩
        exact ih c hrest hcv (by omega)

/-- Completeness of the BFS loop: if a state satisfies the invariant, a
seeded mime `w1` of ghost depth at most 1 has a path of `k - 1` further
edges to the destination, `2 ≤ k ≤ maxDepth`, and the fuel covers the
measure, then the loop returns a path of at most `k` steps. -/
theorem bfsLoop_complete (hs : List FormatHandler) (inF outF : FileFormat)
    (maxD k : Nat) (w1 : String)
    (hk : 2 ≤ k) (hkmd : k ≤ maxD)
    (hw1path : PathLen hs w1 outF.mime (k - 1)) :
    ∀ (fuel : Nat) (q : List QItem) (v : List String) (ℓ : String → Nat),
      BfsInv hs inF outF maxD q v ℓ →
      w1 ∈ v → ℓ w1 ≤ 1 →
      q.length + freshCount (mimePool hs) v + 1 ≤ fuel →
      ∃ p, bfsLoop hs outF maxD fuel q v = some (some p) ∧ p.steps.length ≤ k := by
  have hk2 : k - 2 + 1 = k - 1 := by omega
  intro fuel
  induction fuel with
  | zero => intro q v ℓ _ _ _ hle; omega
  | succ fuel ih =>
    intro q v ℓ inv hw1v hw1ℓ hle
    cases q with
    | nil =>
      exfalso
      refine bfs_blocked_contra hs inF outF maxD k [] v ℓ inv
        (fun hd h => absurd h (by simp)) hkmd (k - 2) w1 ?_ hw1v (by omega)
      rw [hk2]
      exact hw1path
    | cons cur rest =>
      by_cases hcurk : k ≤ cur.path.length
      · exfalso
        refine bfs_blocked_contra hs inF outF maxD k (cur :: rest) v ℓ inv
          ?_ hkmd (k - 2) w1 ?_ hw1v (by omega)
        · intro hd hh
          rw [List.head?_cons] at hh
          injection hh with hh
          rw [← hh]
          exact hcurk
        · rw [hk2]; exact hw1path
      · have hlt : cur.path.length < k := by omega
        rw [bfsLoop]
        rw [if_neg (by omega : ¬ maxD ≤ cur.path.length)]
        cases hfind : findHandler hs cur.format outF with
        | some hd =>
          refine ⟨⟨cur.path ++ [⟨hd, cur.format, outF⟩]⟩, rfl, ?_⟩
          simp only [List.length_append, List.length_singleton]
          omega
        | none =>
          rcases expandAll_spec hs cur v with ⟨news, hexp, hnodup, hnotv, hprod, hclos⟩
          simp only [hexp]
          have hw1notM : w1 ∉ news.map (fun i => i.format.mime) := by
            intro hx
            rcases List.mem_map.mp hx with ⟨i, hi, hieq⟩
            exact (hieq ▸ hnotv i hi) hw1v
          have hinv' := bfsInv_step hs inF outF maxD cur rest v ℓ news inv hfind
            hnodup hnotv hprod hclos
          have hpool : ∀ x ∈ news.map (fun i => i.format.mime),
              x ∈ mimePool hs ∧ x ∉ v := by
            intro x hx
            rcases List.mem_map.mp hx with ⟨i, hi, hieq⟩
            rcases hprod i hi with ⟨h, hh, fs, hsf, _, _, f, hf, _, hif⟩
            have hfmt : i.format = f := by rw [hif]
            refine ⟨?_, hieq ▸ hnotv i hi⟩
            rw [← hieq, hfmt]
            exact mem_mimePool hs h fs f hh hsf hf
          have hcnt := freshCount_append (mimePool hs)
            (news.map (fun i => i.format.mime)) v hnodup hpool
          rcases ih (rest ++ news) (v ++ news.map (fun i => i.format.mime))
              (fun m => if m ∈ news.map (fun i => i.format.mime)
                then cur.path.length + 1 else ℓ m)
              hinv'
              (List.mem_append_left _ hw1v)
              (by simp only [if_neg hw1notM]; exact hw1ℓ)
              (by
                simp only [List.length_append, List.length_cons,
                  List.length_map] at hle hcnt ⊢
                omega) with
            ⟨p, hp, hpk⟩
          exact ⟨p, hp, hpk⟩

/-- The BFS invariant holds right after seeding, with every seeded mime at
ghost depth 1. -/
theorem bfsInv_seed (hs : List FormatHandler) (inF outF : FileFormat) (maxD : Nat)
    (news : List QItem)
    (hnodup : (news.map (fun i => i.format.mime)).Nodup)
    (hprod : ∀ i ∈ news, ∃ h ∈ hs, ∃ fs, h.supportedFormats = some fs ∧
      h.ready = true ∧
      fs.any (fun f => f.mime == inF.mime && f.«from») = true ∧
      ∃ f ∈ fs, (f.«to» && f.mime != inF.mime) = true ∧ i = ⟨f, [⟨h, inF, f⟩]⟩) :
    BfsInv hs inF outF maxD news (news.map (fun i => i.format.mime))
      (fun _ => 1) := by
  have hlen : ∀ i ∈ news, i.path.length = 1 := by
    intro i hi
    rcases hprod i hi with ⟨h, _, fs, _, _, _, f, _, _, hif⟩
    rw [hif]
    rfl
  refine ⟨?_, hnodup, seedAll_item_valid hs inF news hprod, ?_, ?_, ?_, ?_, ?_⟩
  · intro i hi
    exact List.mem_map_of_mem _ hi
  · exact pairwise_le_of_const (fun i => i.path.length) 1 news hlen
  · intro hd hhd i hi
    rw [hlen i hi]
    omega
  · intro hd hhd m hm
    omega
  · intro i hi
    exact (hlen i hi).symm
  · intro m hm hmq
    exact absurd hm hmq

/-- C1 (amended): with a shortest capability-graph path of length `k`
between the two distinct mimes, `findConversionPath` returns a path of
exactly `k` steps whenever `maxHops ≥ k` — and also, because the direct
check precedes the hop-bound check, whenever `k = 1` regardless of
`maxHops`; for `maxHops < k` with `k ≥ 2` it returns `null`. -/
theorem findConversionPath_shortest (hs : List FormatHandler)
    (source destination : FileFormat) (maxHops k : Nat)
    (hne : source.mime ≠ destination.mime)
    (hpath : PathLen hs source.mime destination.mime k)
    (hmin : ∀ j, j < k → ¬ PathLen hs source.mime destination.mime j) :
    (k ≤ maxHops ∨ k = 1 →
      ∃ p, findConversionPath hs source destination maxHops = some p ∧
        p.steps.length = k) ∧
    (maxHops < k → 2 ≤ k →
      findConversionPath hs source destination maxHops = none) := by
  have hk1 : 1 ≤ k := by
    rcases Nat.eq_zero_or_pos k with h0 | h
    · subst h0
      exact absurd (hpath : source.mime = destination.mime) hne
    · omega
  have hnodirect : 2 ≤ k → findHandler hs source destination = none := by
    intro hk2
    cases hfind : findHandler hs source destination with
    | none => rfl
    | some h =>
      exfalso
      rcases findHandler_some_spec hs source destination h hfind with
        ⟨hh, hr, hcf, hct⟩
      have h1 : PathLen hs source.mime destination.mime 1 :=
        ⟨destination.mime,
          (edgeB_iff hs source.mime destination.mime).mpr ⟨h, hh, hr, hcf, hct⟩,
          rfl⟩
      exact hmin 1 (by omega) h1
  constructor
  · intro hcase
    by_cases hkone : k = 1
    · subst hkone
      rcases hpath with ⟨c, hedge, hc⟩
      have hc' : c = destination.mime := hc
      subst hc'
      cases hfind : findHandler hs source destination with
      | none =>
        rw [findHandler_eq_none_iff] at hfind
        rw [hfind] at hedge
        exact absurd hedge (by simp)
      | some h =>
        refine ⟨⟨[⟨h, source, destination⟩]⟩, ?_, rfl⟩
        unfold findConversionPath
        rw [hfind]
    · have hk2 : 2 ≤ k := by omega
      have hmh : k ≤ maxHops := by
        rcases hcase with h | h
        · exact h
        · exact absurd h hkone
      obtain ⟨k', rfl⟩ : ∃ k', k = k' + 2 := ⟨k - 2, by omega⟩
      rcases hpath with ⟨w1, hedge1, hrest⟩
      have hw1ne : w1 ≠ source.mime := by
        intro heq
        rw [heq] at hrest
        exact hmin (k' + 1) (by omega) hrest
      rcases seedAll_spec hs source with ⟨news, hseed, hnodup, hprod, hclos⟩
      have hw1v : w1 ∈ news.map (fun i => i.format.mime) := by
        rcases (edgeB_iff hs source.mime w1).mp hedge1 with
          ⟨h, hh, hready, hcf, hct⟩
        cases hsf : h.supportedFormats with
        | none =>
          unfold canFrom at hcf
          rw [hsf] at hcf
          exact absurd hcf (by simp)
        | some fs =>
          have hany : fs.any (fun f => f.mime == source.mime && f.«from») = true := by
            unfold canFrom at hcf
            rw [hsf] at hcf
            exact hcf
          have hex : ∃ f ∈ fs, f.mime = w1 ∧ f.«to» = true := by
            unfold canTo at hct
            rw [hsf] at hct
            rcases List.any_eq_true.mp hct with ⟨f, hf, hp⟩
            rcases and_eq_true_iff.mp hp with ⟨hbeq, hto⟩
            exact ⟨f, hf, eq_of_beq hbeq, hto⟩
          rcases hex with ⟨f, hf, hfm, hto⟩
          have hkeep : (f.«to» && f.mime != source.mime) = true := by
            rw [hto, hfm]
            simp [hw1ne]
          rw [← hfm]
          exact hclos h hh fs hsf hready hany f hf hkeep
      have hinv := bfsInv_seed hs source destination maxHops news hnodup hprod
      rcases bfsLoop_complete hs source destination maxHops (k' + 2) w1
          (by omega) hmh
          (by rw [(by omega : k' + 2 - 1 = k' + 1)]; exact hrest)
          (news.length +
            freshCount (mimePool hs) (news.map (fun i => i.format.mime)) + 1)
          news (news.map (fun i => i.format.mime)) (fun _ => 1)
          hinv hw1v (le_refl 1) (le_refl _) with
        ⟨p, hp, hpk⟩
      have hsound := bfsLoop_sound hs source destination maxHops _ news
        (news.map (fun i => i.format.mime)) p hp
        (seedAll_item_valid hs source news hprod)
      have hlb : k' + 2 ≤ p.steps.length := by
        by_contra hx
        push_neg at hx
        exact hmin p.steps.length (by omega)
          (chainFrom_pathLen hs p.steps source destination hsound.1)
      refine ⟨p, ?_, by omega⟩
      unfold findConversionPath
      rw [hnodirect hk2]
      rw [if_neg (by omega : ¬ maxHops ≤ 1)]
      simp only [hseed]
      rw [hp]
      rfl
  · intro hmh hk2
    unfold findConversionPath
    rw [hnodirect hk2]
    by_cases hmd : maxHops ≤ 1
    · rw [if_pos hmd]
    · rw [if_neg hmd]
      rcases seedAll_spec hs source with ⟨news, hseed, _, hprod, _⟩
      simp only [hseed]
      cases hb : bfsLoop hs destination maxHops
          (news.length +
            freshCount (mimePool hs) (news.map (fun i => i.format.mime)) + 1)
          news (news.map (fun i => i.format.mime)) with
      | none =>
        exact absurd hb
          (bfsLoop_measure_ne_none hs destination maxHops _ _ _ (le_refl _))
      | some r =>
        cases r with
        | none => rfl
        | some p =>
          exfalso
          have hsound := bfsLoop_sound hs source destination maxHops _ news
            (news.map (fun i => i.format.mime)) p hb
            (seedAll_item_valid hs source news hprod)
          have hub := hsound.2.2
          exact hmin p.steps.length (by omega)
            (chainFrom_pathLen hs p.steps source destination hsound.1)

/-- C1 counterexample: with one direct handler `A → B` (so the shortest
path has length `k = 1`, the mimes are distinct, and no shorter path
exists), `findConversionPath` with `maxHops = 0 < k` does not return
NotFound as the claim requires: the direct-handler check precedes the
hop-bound check, so the one-step path is returned. -/
theorem shortest_path_hop_bound_ignored_for_direct :
    fmtA.mime ≠ fmtB.mime ∧
    PathLen [hAB] fmtA.mime fmtB.mime 1 ∧
    ¬ PathLen [hAB] fmtA.mime fmtB.mime 0 ∧
    findConversionPath [hAB] fmtA fmtB 0 = some ⟨[⟨hAB, fmtA, fmtB⟩]⟩ :=
  ⟨by decide, ⟨"app/b", rfl, rfl⟩,
    fun h => absurd (show fmtA.mime = fmtB.mime from h) (by decide), rfl⟩

/-- Witness for C1 (amended): on the fixture graph `A → B → C` with
shortest length 2, the pathfinder returns a 2-step path for `maxHops = 3`
and NotFound for `maxHops = 1`. -/
theorem findConversionPath_shortest_witness :
    (∃ p, findConversionPath [hAB, hBCfail] fmtA fmtC 3 = some p ∧
        p.steps.length = 2) ∧
    findConversionPath [hAB, hBCfail] fmtA fmtC 1 = none := by
  have hpath : PathLen [hAB, hBCfail] fmtA.mime fmtC.mime 2 :=
    ⟨"app/b", rfl, "app/c", rfl, rfl⟩
  have hmin : ∀ j, j < 2 → ¬ PathLen [hAB, hBCfail] fmtA.mime fmtC.mime j := by
    intro j hj
    interval_cases j
    · exact fun h => absurd (show fmtA.mime = fmtC.mime from h) (by decide)
    · rintro ⟨c, hc, hc0⟩
      have hceq : c = fmtC.mime := hc0
      subst hceq
      exact absurd hc (by decide)
  have hr := findConversionPath_shortest [hAB, hBCfail] fmtA fmtC 3 2
    (by decide) hpath hmin
  have hr1 := findConversionPath_shortest [hAB, hBCfail] fmtA fmtC 1 2
    (by decide) hpath hmin
  exact ⟨hr.1 (Or.inl (by omega)), hr1.2 (by omega) (by omega)⟩

end Convert
